import Mathlib

/-!
# web-chat relay (`server.c`): message log and delivery cursors

A shallow embedding of the request handlers of `server.c` and of the helper
functions they call, followed by theorems about publishing (`handle_post`),
polling (`handle_get`), the parameter decoder (`url_decode`,
`get_param_value`) and the client registry (`get_client_index`).

Conventions of the embedding.

* A C string is the list of the bytes before its terminator (`CStr`).  A
  function that reads a `char *` argument reads it through `cstr`, which stops
  at the first NUL, exactly as `while (*p)`, `strlen`, `strcmp`, `strstr`,
  `strchr`, `strcpy` and `strcat` do.
* The global arrays `message_store` and `clients` are functions from the index
  to the element, together with their counters `total_messages` and
  `total_clients`.  The initial state is the zero-initialised one.
* A handler returns `none` when, on that input, the C program leaves defined
  behaviour: a copy that does not fit its destination buffer, or a read past
  the terminator of a string.  Nothing is claimed about such runs.
* `last_seen_index` and the counters are `int` in C; they only ever hold values
  between `0` and `MAX_STORED_MSGS`, so they are natural numbers here.
-/

namespace WebChat

/-- C string contents: the bytes that precede the terminator. -/
abbrev CStr := List Char

def MAX_MSG_LEN : Nat := 1024
def MAX_ID_LEN : Nat := 100
def MAX_STORED_MSGS : Nat := 500
def MAX_CLIENTS : Nat := 50

/-- Size of `char buffer[4096]` in `handle_get`. -/
def GET_BUFFER_SIZE : Nat := 4096

/-- Size of `char query_key[100]` in `get_param_value`. -/
def QUERY_KEY_SIZE : Nat := 100

/-- The string a `char *` denotes: everything before the first NUL. -/
def cstr (s : List Char) : CStr := s.takeWhile (fun c => c ≠ '\x00')

/-! ## libc helpers -/

/-- The predicate `isspace` of the C locale. -/
def isspace (c : Char) : Bool :=
  c = ' ' ∨ c = '\t' ∨ c = '\n' ∨ c = '\x0b' ∨ c = '\x0c' ∨ c = '\r'

/-- Value of a hexadecimal digit, either case. -/
def hexDigit (c : Char) : Option Nat :=
  if '0' ≤ c ∧ c ≤ '9' then some (c.toNat - '0'.toNat)
  else if 'a' ≤ c ∧ c ≤ 'f' then some (c.toNat - 'a'.toNat + 10)
  else if 'A' ≤ c ∧ c ≤ 'F' then some (c.toNat - 'A'.toNat + 10)
  else none

/-- Digit loop of `strtoul`: accumulate while the next byte is a hex digit. -/
def strtoul_digits (acc : Nat) : List Char → Nat
  | [] => acc
  | c :: t =>
    match hexDigit c with
    | some d => strtoul_digits (acc * 16 + d) t
    | none => acc

/-- The call `strtoul(s, NULL, 16)` with a 64-bit `unsigned long`: skip white space, take an
optional sign, skip a `0x` prefix when a digit follows it, read the digits,
and negate modulo `2 ^ 64` after a minus sign.  No digits gives `0`.  (The
clamp to `ULONG_MAX` is left out: `code` holds at most two characters.) -/
def strtoul16 (s : List Char) : Nat :=
  let s1 := (cstr s).dropWhile isspace
  let neg : Bool := match s1 with
    | c :: _ => c = '-'
    | [] => false
  let s2 := match s1 with
    | c :: t => if c = '-' ∨ c = '+' then t else s1
    | [] => s1
  let s3 := match s2 with
    | z :: x :: h :: t =>
      if z = '0' ∧ (x = 'x' ∨ x = 'X') ∧ (hexDigit h).isSome then h :: t else s2
    | _ => s2
  let v := strtoul_digits 0 s3
  if neg then (2 ^ 64 - v) % 2 ^ 64 else v

/-- The conversion `(char)n`: the low eight bits. -/
def toChar (n : Nat) : Char := Char.ofNat (n % 256)

/-- The call `strstr(hay, needle)` on NUL-free contents: the suffix of `hay` that starts at the first
occurrence of `needle`, `none` for a null pointer. -/
def strstr : List Char → List Char → Option (List Char)
  | [], needle => if needle.isPrefixOf [] then some [] else none
  | c :: t, needle => if needle.isPrefixOf (c :: t) then some (c :: t) else strstr t needle

/-- The call `strchr(s, c)` on NUL-free contents, for `c` not NUL: the suffix of `s` that starts at the
first `c`, `none` for a null pointer. -/
def strchr : List Char → Char → Option (List Char)
  | [], _ => none
  | d :: t, c => if d = c then some (d :: t) else strchr t c

/-! ## Helper functions of `server.c` -/

/-- Loop of `url_decode` over the bytes of `src` before its terminator; the
result is the bytes stored through `dest`, in order, before the final
terminator.  After a `'%'` the code copies the two bytes at `p + 1` into
`code` and continues at `p + 3`: with fewer than two bytes left before the
terminator, `p + 3` lies beyond the terminator and the loop reads memory that
is not part of the string (`none`). -/
def url_decode_loop : List Char → Option (List Char)
  | [] => some []
  | c :: p =>
    if c = '%' then
      match p with
      | c1 :: c2 :: rest =>
        (url_decode_loop rest).map (fun d => toChar (strtoul16 [c1, c2]) :: d)
      | _ => none
    else if c = '+' then (url_decode_loop p).map (fun d => ' ' :: d)
    else (url_decode_loop p).map (fun d => c :: d)

/-- Bytes that `url_decode(src, dest)` stores through `dest` before the
terminator it writes last. -/
def url_decode_bytes (src : List Char) : Option (List Char) := url_decode_loop (cstr src)

/-- The string `url_decode(src, dest)` leaves in `dest`.  A decoded NUL byte
(`%00`, or an escape without hex digits) ends that string early.  The output
is never longer than `src`, and each caller decodes into a buffer as large as
the one that holds `src`, so the stores through `dest` stay in bounds. -/
def url_decode (src : List Char) : Option CStr := (url_decode_bytes src).map cstr

/-- The call `get_param_value(data, key, dest)` for a destination of `cap` bytes; the result is
the string left in `dest`.  `none` when `key` and `'='` do not fit `query_key`
or when the value and its terminator do not fit `dest`. -/
def get_param_value (data key : List Char) (cap : Nat) : Option CStr :=
  let query_key := cstr key ++ ['=']
  if QUERY_KEY_SIZE ≤ query_key.length then none
  else
    match strstr (cstr data) query_key with
    | some start =>
      let start := start.drop query_key.length
      let value := match strchr start '&' with
        | some e => start.take (start.length - e.length)
        | none => start
      if value.length < cap then some value else none
    | none => some []

/-! ## Global storage -/

structure ChatMessage where
  msg : CStr
  sender_id : CStr
deriving DecidableEq, Repr

structure ClientSession where
  client_id : CStr
  last_seen_index : Nat
deriving DecidableEq, Repr

/-- The four globals `message_store`, `total_messages`, `clients`, `total_clients`. -/
structure State where
  message_store : Nat → ChatMessage
  total_messages : Nat
  clients : Nat → ClientSession
  total_clients : Nat

/-- Array store `a[i] = v`. -/
def store {α : Type} (a : Nat → α) (i : Nat) (v : α) : Nat → α :=
  fun j => if j = i then v else a j

/-- Zero-initialised globals at process start. -/
def init : State where
  message_store := fun _ => ⟨[], []⟩
  total_messages := 0
  clients := fun _ => ⟨[], 0⟩
  total_clients := 0

/-- The `for` loop of `get_client_index`: the first `i < total_clients` with
`strcmp(clients[i].client_id, client_id) == 0`. -/
def find_client (s : State) (client_id : CStr) : Option Nat :=
  (List.range s.total_clients).find? (fun i => (s.clients i).client_id = client_id)

/-- The function `get_client_index(client_id)`: returned index and new globals.  `strncpy`
copies at most `MAX_ID_LEN` bytes; every caller passes fewer, so the stored
field is terminated. -/
def get_client_index (s : State) (client_id : List Char) : Nat × State :=
  match find_client s (cstr client_id) with
  | some i => (i, s)
  | none =>
    if s.total_clients < MAX_CLIENTS then
      (s.total_clients,
        { s with
          clients := store s.clients s.total_clients ⟨(cstr client_id).take MAX_ID_LEN, 0⟩
          total_clients := s.total_clients + 1 })
    else (0, s)

/-! ## Handlers -/

/-- The handler `handle_post(clientfd, body)`: the globals after the call.  The response sent
to the socket is the same fixed text on every path and is not modelled. -/
def handle_post (s : State) (body : List Char) : Option State :=
  match get_param_value body "message".toList MAX_MSG_LEN,
        get_param_value body "client_id".toList MAX_ID_LEN with
  | some raw_msg, some raw_id =>
    if 0 < raw_msg.length ∧ s.total_messages < MAX_STORED_MSGS then
      match url_decode raw_msg, url_decode raw_id with
      | some m, some sid =>
        some { s with
          message_store := store s.message_store s.total_messages ⟨m, sid⟩
          total_messages := s.total_messages + 1 }
      | _, _ => none
    else some s
  | _, _ => none

/-- Identity `clean_id` that `handle_get` computes from the request URL. -/
def clean_id (url : List Char) : Option CStr :=
  match strchr (cstr url) '?' with
  | some query_start =>
    match get_param_value (query_start.drop 1) "client_id".toList MAX_ID_LEN with
    | some raw_id => url_decode raw_id
    | none => none
  | none => some "unknown".toList

/-- One iteration of the collecting loop of `handle_get` at index `i`.  The
accumulator is `buffer`, `has_content`, and a ghost list of the indices whose
`msg` was appended. -/
def collect_step (s : State) (id : CStr) (acc : List Char × Bool × List Nat) (i : Nat) :
    List Char × Bool × List Nat :=
  if (s.message_store i).sender_id ≠ id then
    (acc.1 ++ (s.message_store i).msg ++ ['\n'], true, acc.2.2 ++ [i])
  else acc

/-- The loop `for (i = start_idx; i < total_messages; i++)` of `handle_get`. -/
def collect (s : State) (id : CStr) (start_idx : Nat) : List Char × Bool × List Nat :=
  (List.range' start_idx (s.total_messages - start_idx)).foldl (collect_step s id) ([], false, [])

/-- Result of a poll: the globals after it, the response body, and the ghost
list of delivered log indices. -/
structure GetResult where
  state : State
  body : List Char
  delivered : List Nat

/-- The handler `handle_get(clientfd, url)`.  `none` when `clean_id` is undefined or the
batch and its terminator do not fit `buffer`.  The body sent is `buffer` when
`has_content` is set and empty otherwise. -/
def handle_get (s : State) (url : List Char) : Option GetResult :=
  match clean_id url with
  | none => none
  | some id =>
    let r := get_client_index s id
    let client_idx := r.1
    let s1 := r.2
    let start_idx := (s1.clients client_idx).last_seen_index
    let c := collect s1 id start_idx
    if c.1.length < GET_BUFFER_SIZE then
      some {
        state := { s1 with
          clients := store s1.clients client_idx
            { s1.clients client_idx with last_seen_index := s1.total_messages } }
        body := if c.2.1 then c.1 else []
        delivered := c.2.2 }
    else none

/-! ## Request sequences -/

/-- A request as `main` dispatches it: `POST` with its body, `GET` with its URL. -/
inductive Request where
  | POST (body : List Char)
  | GET (url : List Char)

/-- Record of one answered poll: the polling identity, `total_messages` at the
poll, the body returned, and the log indices delivered. -/
structure PollEvent where
  id : CStr
  total : Nat
  body : List Char
  delivered : List Nat
deriving DecidableEq, Repr

/-- One iteration of the accept loop of `main` on the globals and the history
of answered polls. -/
def step (st : State × List PollEvent) : Request → Option (State × List PollEvent)
  | Request.POST body => (handle_post st.1 body).map (fun s => (s, st.2))
  | Request.GET url =>
    match clean_id url, handle_get st.1 url with
    | some id, some r => some (r.state, st.2 ++ [⟨id, st.1.total_messages, r.body, r.delivered⟩])
    | _, _ => none

/-- Serve a sequence of requests in order. -/
def run (st : State × List PollEvent) : List Request → Option (State × List PollEvent)
  | [] => some st
  | req :: rest =>
    match step st req with
    | some st1 => run st1 rest
    | none => none

/-- States the server can be in after serving some sequence of requests from
process start. -/
def Reachable (s : State) : Prop :=
  ∃ reqs hist, run (init, []) reqs = some (s, hist)

/-- Text of a poll batch made of the log entries at indices `idxs`: each `msg`
followed by one newline, in the order of `idxs`. -/
def batch_of (s : State) (idxs : List Nat) : List Char :=
  idxs.flatMap (fun i => (s.message_store i).msg ++ ['\n'])

/-- Log indices in `[c, L)` whose sender differs from `id`, increasing. -/
def unseen_from_others (s : State) (id : CStr) (c L : Nat) : List Nat :=
  (List.range' c (L - c)).filter (fun i => decide ((s.message_store i).sender_id ≠ id))

/-- Globals after serving `reqs` from process start (the initial globals when
the run is undefined); used to name concrete states. -/
def state_after (reqs : List Request) : State :=
  match run (init, []) reqs with
  | some st => st.1
  | none => init

/-- One publish by alice, then one by bob. -/
def demo_requests : List Request :=
  [Request.POST "message=Hello%20World&client_id=alice".toList,
   Request.POST "client_id=bob&message=hi+there".toList]

/-- A publish, a poll, a second publish, a second poll. -/
def demo_session : List Request :=
  [Request.POST "message=Hello%20World&client_id=alice".toList,
   Request.GET "/receive?client_id=bob".toList,
   Request.POST "client_id=bob&message=hi+there".toList,
   Request.GET "/receive?client_id=alice".toList]

/-- Cursor bound and capacity bounds that every reachable state satisfies. -/
def Bounded (s : State) : Prop :=
  s.total_messages ≤ MAX_STORED_MSGS ∧ s.total_clients ≤ MAX_CLIENTS ∧
    ∀ i, i < s.total_clients → (s.clients i).last_seen_index ≤ s.total_messages

/-- As many publishes of a one-byte message as the log holds (`MAX_STORED_MSGS`). -/
def flood : List Request :=
  List.replicate MAX_STORED_MSGS (Request.POST "message=x".toList)

/-! ## Delivery histories -/

/-- Polls of identity `X` in a history, oldest first. -/
def polls_of (hist : List PollEvent) (X : CStr) : List PollEvent :=
  hist.filter (fun e => decide (e.id = X))

/-- Everything returned to `X`: the bodies of its polls, concatenated in order. -/
def bodies_to (hist : List PollEvent) (X : CStr) : List Char :=
  ((polls_of hist X).map PollEvent.body).flatten

/-- Log indices delivered to `X` over all its polls, in order of delivery. -/
def delivered_to (hist : List PollEvent) (X : CStr) : List Nat :=
  ((polls_of hist X).map PollEvent.delivered).flatten

/-- Log length at the most recent poll of `X` (`0` when `X` never polled). -/
def last_total (hist : List PollEvent) (X : CStr) : Nat :=
  match (polls_of hist X).getLast? with
  | some e => e.total
  | none => 0

/-- Distinct identities that have polled. -/
def pollers (hist : List PollEvent) : List CStr :=
  (hist.map PollEvent.id).dedup

/-- Identities of the sessions in the registry, by index. -/
def registered (s : State) : List CStr :=
  (List.range s.total_clients).map (fun i => (s.clients i).client_id)

/-- Index of the session that a poll of `X` uses once `X` is registered or the
registry is full: the first match, else the fallback `0`. -/
def slot (s : State) (X : CStr) : Nat :=
  match find_client s X with
  | some i => i
  | none => 0

/-- Invariant behind the absence of duplicates: the indices delivered to an
identity are distinct and lie below the cursor of the session it polls through. -/
def NoDupInv (st : State × List PollEvent) : Prop :=
  Bounded st.1 ∧
  ∀ X, (delivered_to st.2 X).Nodup ∧
    (X ∈ st.2.map PollEvent.id →
      ((find_client st.1 X).isSome ∨ MAX_CLIENTS ≤ st.1.total_clients) ∧
      ∀ k, k ∈ delivered_to st.2 X → k < (st.1.clients (slot st.1 X)).last_seen_index)

/-- Invariant behind the absence of loss while no more than `MAX_CLIENTS`
identities have polled: sessions are distinct pollers, and each poller's
session cursor is the log length at its last poll, everything below which
(its own messages apart) has been returned to it. -/
def NoLossInv (st : State × List PollEvent) : Prop :=
  Bounded st.1 ∧
  ((pollers st.2).length ≤ MAX_CLIENTS →
    (registered st.1).Nodup ∧
    (∀ X, X ∈ registered st.1 → X ∈ st.2.map PollEvent.id) ∧
    ∀ X, X ∈ st.2.map PollEvent.id →
      ∃ i, find_client st.1 X = some i ∧
        (st.1.clients i).last_seen_index = last_total st.2 X ∧
        bodies_to st.2 X = batch_of st.1 (unseen_from_others st.1 X 0 (last_total st.2 X)))

/-- Each recorded body is the text of the log entries recorded as delivered
with it, all of them below the log length. -/
def BodiesInv (st : State × List PollEvent) : Prop :=
  ∀ e, e ∈ st.2 → e.body = batch_of st.1 e.delivered ∧
    ∀ k, k ∈ e.delivered → k < st.1.total_messages

/-- Three publishers and two pollers; bob polls twice. -/
def demo_chat : List Request :=
  [Request.POST "message=Hello%20World&client_id=alice".toList,
   Request.GET "/receive?client_id=bob".toList,
   Request.POST "client_id=bob&message=hi+there".toList,
   Request.GET "/receive?client_id=alice".toList,
   Request.POST "message=yo&client_id=carol".toList,
   Request.GET "/receive?client_id=bob".toList]

/-- First polls by `MAX_CLIENTS` one-letter identities `A`, `B`, ... -/
def crowd : List Request :=
  (List.range MAX_CLIENTS).map
    (fun i => Request.GET ("/r?client_id=".toList ++ [Char.ofNat (65 + i)]))

/-- A full registry, then publishes by `A` and `B` interleaved with polls by
the unregistered identity `zed` and by `A`, whose session has index `0`. -/
def overflow_chat : List Request :=
  crowd ++
  [Request.POST "message=m0&client_id=A".toList,
   Request.POST "message=m1&client_id=B".toList,
   Request.GET "/r?client_id=zed".toList,
   Request.POST "message=m2&client_id=B".toList,
   Request.GET "/r?client_id=A".toList,
   Request.GET "/r?client_id=zed".toList]

/-- History of answered polls after serving `reqs` from process start (empty
when the run is undefined). -/
def history_after (reqs : List Request) : List PollEvent :=
  match run (init, []) reqs with
  | some st => st.2
  | none => []

/-! ## Decoding specification, registry predicates and further scenarios -/

/-- Every `'%'` of `s` is immediately followed by two hexadecimal digits. -/
def escapes_complete (s : List Char) : Prop :=
  ∀ i, i < s.length → s[i]? = some '%' →
    (s[i + 1]?.bind hexDigit).isSome ∧ (s[i + 2]?.bind hexDigit).isSome

instance (s : List Char) : Decidable (escapes_complete s) := by
  unfold escapes_complete
  infer_instance

/-- Decoding as the specification words it: `%XX` becomes the byte of value
`XX`, `'+'` becomes a space, every other byte is kept, in order; a `'%'` with
fewer than two characters after it is kept with those characters. -/
def decode_spec : List Char → List Char
  | [] => []
  | c :: rest =>
    if c = '%' then
      match rest with
      | c1 :: c2 :: rest2 =>
        Char.ofNat (16 * (hexDigit c1).getD 0 + (hexDigit c2).getD 0) :: decode_spec rest2
      | _ => c :: rest
    else if c = '+' then ' ' :: decode_spec rest
    else c :: decode_spec rest

/-- A full registry followed by two publishes. -/
def full_registry_chat : List Request :=
  crowd ++
  [Request.POST "message=m0&client_id=A".toList,
   Request.POST "message=m1&client_id=B".toList]

/-- No two sessions of the registry hold the same identity. -/
def UniqueSessions (s : State) : Prop :=
  ∀ i j, i < s.total_clients → j < s.total_clients →
    (s.clients i).client_id = (s.clients j).client_id → i = j

/-- Body of a publish by `s` of a message of 1000 bytes. -/
def long_body : List Char :=
  "client_id=s&message=".toList ++ List.replicate 1000 'a'

/-- Five publishes of 1000-byte messages by one sender. -/
def long_posts : List Request := List.replicate 5 (Request.POST long_body)

/-! ## Auxiliary lemmas -/

theorem collect_fold (s : State) (id : CStr) (l : List Nat) (acc : List Char × Bool × List Nat) :
    l.foldl (collect_step s id) acc =
      (acc.1 ++ batch_of s (l.filter (fun i => decide ((s.message_store i).sender_id ≠ id))),
       acc.2.1 || !(l.filter (fun i => decide ((s.message_store i).sender_id ≠ id))).isEmpty,
       acc.2.2 ++ l.filter (fun i => decide ((s.message_store i).sender_id ≠ id))) := by
  induction l generalizing acc with
  | nil => simp [batch_of]
  | cons i t ih =>
    rw [List.foldl_cons, ih]
    by_cases h : (s.message_store i).sender_id = id
    · simp [collect_step, h]
    · simp [collect_step, h, batch_of, List.flatMap_cons, List.append_assoc]

theorem collect_eq (s : State) (id : CStr) (c : Nat) :
    collect s id c =
      (batch_of s (unseen_from_others s id c s.total_messages),
       !(unseen_from_others s id c s.total_messages).isEmpty,
       unseen_from_others s id c s.total_messages) := by
  simp [collect, collect_fold, unseen_from_others]

theorem cstr_idem (l : List Char) : cstr (cstr l) = cstr l := by
  unfold cstr
  induction l with
  | nil => rfl
  | cons c t ih =>
    rw [List.takeWhile_cons]
    split
    · rename_i h
      rw [List.takeWhile_cons, h, ih]
      rfl
    · rfl

theorem cstr_length_le (l : List Char) : (cstr l).length ≤ l.length := by
  unfold cstr
  induction l with
  | nil => simp
  | cons c t ih =>
    rw [List.takeWhile_cons]
    split
    · simp only [List.length_cons]; omega
    · simp

theorem url_decode_loop_cons (c : Char) (p : List Char) :
    url_decode_loop (c :: p) =
      if c = '%' then
        match p with
        | c1 :: c2 :: rest =>
          (url_decode_loop rest).map (fun d => toChar (strtoul16 [c1, c2]) :: d)
        | _ => none
      else if c = '+' then (url_decode_loop p).map (fun d => ' ' :: d)
      else (url_decode_loop p).map (fun d => c :: d) := by
  match p with
  | [] => rfl
  | [_] => rfl
  | _ :: _ :: _ => rfl

theorem url_decode_loop_length : ∀ (n : Nat) (l d : List Char), l.length ≤ n →
    url_decode_loop l = some d → d.length ≤ l.length := by
  intro n
  induction n with
  | zero =>
    intro l d hl h
    have : l = [] := List.length_eq_zero.mp (Nat.le_zero.mp hl)
    subst this
    simp [url_decode_loop] at h
    simp [← h]
  | succ n ih =>
    intro l d hl h
    cases l with
    | nil => simp [url_decode_loop] at h; simp [← h]
    | cons c p =>
      rw [url_decode_loop_cons] at h
      simp only [List.length_cons] at hl ⊢
      split at h
      · split at h
        · rename_i c1 c2 rest
          simp only [Option.map_eq_some'] at h
          obtain ⟨e, he, rfl⟩ := h
          have := ih rest e (by simp only [List.length_cons] at hl; omega) he
          simp only [List.length_cons]; omega
        · simp at h
      · split at h <;>
        · simp only [Option.map_eq_some'] at h
          obtain ⟨e, he, rfl⟩ := h
          have := ih p e (by omega) he
          simp only [List.length_cons]; omega

theorem url_decode_cstr {raw m : List Char} (h : url_decode raw = some m) : cstr m = m := by
  simp only [url_decode, Option.map_eq_some'] at h
  obtain ⟨b, _, rfl⟩ := h
  exact cstr_idem b

theorem url_decode_length {raw m : List Char} (h : url_decode raw = some m) :
    m.length ≤ raw.length := by
  simp only [url_decode, url_decode_bytes, Option.map_eq_some'] at h
  obtain ⟨b, hb, rfl⟩ := h
  have h1 := url_decode_loop_length _ _ _ (Nat.le_refl _) hb
  have h2 := cstr_length_le b
  have h3 := cstr_length_le raw
  omega

theorem get_param_value_length {data key : List Char} {cap : Nat} {v : List Char}
    (hc : 0 < cap) (h : get_param_value data key cap = some v) : v.length < cap := by
  unfold get_param_value at h
  simp only at h
  split at h
  · simp at h
  · split at h
    · split at h
      · rename_i hlt
        simp only [Option.some.injEq] at h
        rw [← h]; exact hlt
      · simp at h
    · simp only [Option.some.injEq] at h
      rw [← h]; exact hc

theorem clean_id_cstr {url id : List Char} (h : clean_id url = some id) : cstr id = id := by
  unfold clean_id at h
  split at h
  · split at h
    · exact url_decode_cstr h
    · simp at h
  · simp at h; subst h; decide

theorem clean_id_length {url id : List Char} (h : clean_id url = some id) :
    id.length < MAX_ID_LEN := by
  unfold clean_id at h
  split at h
  · split at h
    · rename_i raw hraw
      have h1 := get_param_value_length (by decide) hraw
      have h2 := url_decode_length h
      omega
    · simp at h
  · simp at h; subst h; decide

theorem find_range_none (p : Nat → Bool) (n : Nat) :
    (List.range n).find? p = none ↔ ∀ j, j < n → p j = false := by
  simp [List.find?_eq_none, List.mem_range]

theorem find_range_some (p : Nat → Bool) (n i : Nat) :
    (List.range n).find? p = some i ↔ i < n ∧ p i = true ∧ ∀ j, j < i → p j = false := by
  induction n generalizing i with
  | zero => simp
  | succ n ih =>
    rw [List.range_succ, List.find?_append]
    cases hf : (List.range n).find? p with
    | some k =>
      have hk := (ih k).mp hf
      simp only [Option.or_some, Option.some.injEq]
      constructor
      · rintro rfl
        exact ⟨by omega, hk.2.1, hk.2.2⟩
      · rintro ⟨_, hpi, hmin⟩
        rcases Nat.lt_trichotomy k i with h | h | h
        · have := hmin k h
          rw [hk.2.1] at this; cases this
        · exact h
        · have := hk.2.2 i h
          rw [hpi] at this; cases this
    | none =>
      have hn := (find_range_none p n).mp hf
      simp only [Option.none_or]
      by_cases hp : p n = true
      · simp only [List.find?_cons, hp, Option.some.injEq]
        constructor
        · rintro rfl
          exact ⟨by omega, hp, hn⟩
        · rintro ⟨hi, hpi, hmin⟩
          rcases Nat.lt_trichotomy n i with h | h | h
          · omega
          · exact h
          · have := hn i h
            rw [hpi] at this; cases this
      · have hp' : p n = false := by simpa using hp
        simp only [List.find?_cons, hp', List.find?_nil]
        constructor
        · intro h; cases h
        · rintro ⟨hi, hpi, _⟩
          have : i < n ∨ i = n := by omega
          rcases this with h | h
          · have := hn i h
            rw [hpi] at this; cases this
          · subst h; rw [hp'] at hpi; cases hpi

theorem find_client_some {s : State} {x : CStr} {i : Nat} (h : find_client s x = some i) :
    i < s.total_clients ∧ (s.clients i).client_id = x ∧
      ∀ j, j < i → (s.clients j).client_id ≠ x := by
  have := (find_range_some _ _ _).mp h
  simpa using this

theorem find_client_none {s : State} {x : CStr} (h : find_client s x = none) :
    ∀ j, j < s.total_clients → (s.clients j).client_id ≠ x := by
  have := (find_range_none _ _).mp h
  simpa using this

theorem find_client_of_first {s : State} {x : CStr} {i : Nat} (hi : i < s.total_clients)
    (hx : (s.clients i).client_id = x) (hmin : ∀ j, j < i → (s.clients j).client_id ≠ x) :
    find_client s x = some i := by
  apply (find_range_some _ _ _).mpr
  simpa using ⟨hi, hx, hmin⟩

/-- The three ways `get_client_index` can return. -/
theorem get_client_index_cases (s : State) (id : List Char) :
    (∃ i, find_client s (cstr id) = some i ∧ get_client_index s id = (i, s)) ∨
    (find_client s (cstr id) = none ∧ s.total_clients < MAX_CLIENTS ∧
      get_client_index s id = (s.total_clients,
        { s with
          clients := store s.clients s.total_clients ⟨(cstr id).take MAX_ID_LEN, 0⟩
          total_clients := s.total_clients + 1 })) ∨
    (find_client s (cstr id) = none ∧ MAX_CLIENTS ≤ s.total_clients ∧
      get_client_index s id = (0, s)) := by
  unfold get_client_index
  cases hf : find_client s (cstr id) with
  | some i => exact Or.inl ⟨i, rfl, rfl⟩
  | none =>
    by_cases hc : s.total_clients < MAX_CLIENTS
    · exact Or.inr (Or.inl ⟨rfl, hc, by simp [hc]⟩)
    · exact Or.inr (Or.inr ⟨rfl, by omega, by simp [hc]⟩)

theorem get_client_index_log (s : State) (id : List Char) :
    (get_client_index s id).2.message_store = s.message_store ∧
      (get_client_index s id).2.total_messages = s.total_messages := by
  rcases get_client_index_cases s id with ⟨i, _, h⟩ | ⟨_, _, h⟩ | ⟨_, _, h⟩ <;> simp [h]

theorem get_client_index_lt (s : State) (id : List Char) :
    (get_client_index s id).1 < (get_client_index s id).2.total_clients := by
  rcases get_client_index_cases s id with ⟨i, hf, h⟩ | ⟨_, _, h⟩ | ⟨_, hc, h⟩
  · rw [h]; exact (find_client_some hf).1
  · rw [h]; simp
  · rw [h]; simp only [MAX_CLIENTS] at hc; simp only; omega

theorem get_client_index_old (s : State) (id : List Char) (j : Nat) (hj : j < s.total_clients) :
    (get_client_index s id).2.clients j = s.clients j := by
  rcases get_client_index_cases s id with ⟨i, _, h⟩ | ⟨_, _, h⟩ | ⟨_, _, h⟩
  · rw [h]
  · rw [h]; simp only [store]; rw [if_neg (by omega)]
  · rw [h]

theorem get_client_index_other (s : State) (id : List Char) (j : Nat)
    (hj : j ≠ (get_client_index s id).1) :
    (get_client_index s id).2.clients j = s.clients j := by
  rcases get_client_index_cases s id with ⟨i, _, h⟩ | ⟨_, _, h⟩ | ⟨_, _, h⟩
  · rw [h]
  · rw [h] at hj ⊢; simp only [store]; rw [if_neg hj]
  · rw [h]

theorem get_client_index_total_le (s : State) (id : List Char) :
    s.total_clients ≤ (get_client_index s id).2.total_clients := by
  rcases get_client_index_cases s id with ⟨i, _, h⟩ | ⟨_, _, h⟩ | ⟨_, _, h⟩ <;> simp [h]

/-- What a defined `handle_get` returns, in terms of `get_client_index` and
the filtered index range. -/
theorem handle_get_some {s : State} {url : List Char} {id : CStr} {r : GetResult}
    (hid : clean_id url = some id) (hr : handle_get s url = some r) :
    let g := get_client_index s id
    let c := (g.2.clients g.1).last_seen_index
    r.delivered = unseen_from_others s id c s.total_messages ∧
    r.body = batch_of s r.delivered ∧
    (batch_of s r.delivered).length < GET_BUFFER_SIZE ∧
    r.state.message_store = s.message_store ∧
    r.state.total_messages = s.total_messages ∧
    r.state.total_clients = g.2.total_clients ∧
    r.state.clients = store g.2.clients g.1
      { g.2.clients g.1 with last_seen_index := s.total_messages } := by
  intro g c
  have hlog := get_client_index_log s id
  have hb : ∀ t : State, t.message_store = s.message_store → ∀ l, batch_of t l = batch_of s l := by
    intro t ht l; simp [batch_of, ht]
  have hu : ∀ t : State, t.message_store = s.message_store → ∀ a b,
      unseen_from_others t id a b = unseen_from_others s id a b := by
    intro t ht a b; simp [unseen_from_others, ht]
  unfold handle_get at hr
  rw [hid] at hr
  simp only [collect_eq] at hr
  split at hr
  · rename_i hlen
    simp only [Option.some.injEq] at hr
    subst hr
    simp only [hlog.2, hb _ hlog.1, hu _ hlog.1] at hlen ⊢
    refine ⟨trivial, ?_, hlen, hlog.1, trivial, trivial, trivial⟩
    generalize unseen_from_others s id _ s.total_messages = l
    cases l with
    | nil => simp [batch_of]
    | cons a t => simp
  · simp at hr

theorem run_induction (P : State × List PollEvent → Prop)
    (hstep : ∀ st req st1, P st → step st req = some st1 → P st1) :
    ∀ (reqs : List Request) (st st1 : State × List PollEvent),
      P st → run st reqs = some st1 → P st1 := by
  intro reqs
  induction reqs with
  | nil =>
    intro st st1 hP h
    simp only [run, Option.some.injEq] at h
    exact h ▸ hP
  | cons req rest ih =>
    intro st st1 hP h
    rw [run] at h
    cases hs : step st req with
    | none => rw [hs] at h; cases h
    | some st2 =>
      rw [hs] at h
      exact ih st2 st1 (hstep st req st2 hP hs) h

theorem state_invariant (P : State → Prop) (h0 : P init)
    (hpost : ∀ s body s1, P s → handle_post s body = some s1 → P s1)
    (hget : ∀ s url r, P s → handle_get s url = some r → P r.state) :
    ∀ s, Reachable s → P s := by
  rintro s ⟨reqs, hist, hrun⟩
  refine run_induction (fun st => P st.1) ?_ reqs (init, []) (s, hist) h0 hrun
  intro st req st1 hP hs
  cases req with
  | POST body =>
    simp only [step, Option.map_eq_some'] at hs
    obtain ⟨s1, h1, rfl⟩ := hs
    exact hpost _ _ _ hP h1
  | GET url =>
    simp only [step] at hs
    split at hs
    · rename_i id r hid hr
      simp only [Option.some.injEq] at hs
      subst hs
      exact hget _ _ _ hP hr
    · cases hs

theorem reachable_state_after (reqs : List Request) (h : (run (init, []) reqs).isSome) :
    Reachable (state_after reqs) := by
  obtain ⟨st, hst⟩ := Option.isSome_iff_exists.mp h
  exact ⟨reqs, st.2, by simp [state_after, hst]⟩

/-- The two ways a defined `handle_post` can return. -/
theorem handle_post_cases {s s1 : State} {body : List Char} (h : handle_post s body = some s1) :
    ∃ raw_msg raw_id,
      get_param_value body "message".toList MAX_MSG_LEN = some raw_msg ∧
      get_param_value body "client_id".toList MAX_ID_LEN = some raw_id ∧
      ((¬(0 < raw_msg.length ∧ s.total_messages < MAX_STORED_MSGS) ∧ s1 = s) ∨
       (0 < raw_msg.length ∧ s.total_messages < MAX_STORED_MSGS ∧
         ∃ m sid, url_decode raw_msg = some m ∧ url_decode raw_id = some sid ∧
          s1 = { s with
            message_store := store s.message_store s.total_messages ⟨m, sid⟩
            total_messages := s.total_messages + 1 })) := by
  unfold handle_post at h
  split at h
  · rename_i raw_msg raw_id hm hi
    refine ⟨raw_msg, raw_id, hm, hi, ?_⟩
    split at h
    · rename_i hg
      split at h
      · rename_i m sid h1 h2
        simp only [Option.some.injEq] at h
        exact Or.inr ⟨hg.1, hg.2, m, sid, h1, h2, h.symm⟩
      · cases h
    · rename_i hg
      simp only [Option.some.injEq] at h
      exact Or.inl ⟨hg, h.symm⟩
  · cases h

theorem handle_post_sessions {s s1 : State} {body : List Char}
    (h : handle_post s body = some s1) :
    s1.clients = s.clients ∧ s1.total_clients = s.total_clients ∧
      s.total_messages ≤ s1.total_messages := by
  obtain ⟨_, _, _, _, ⟨_, rfl⟩ | ⟨_, _, _, _, _, _, rfl⟩⟩ := handle_post_cases h
  · exact ⟨rfl, rfl, Nat.le_refl _⟩
  · exact ⟨rfl, rfl, Nat.le_succ _⟩

theorem bounded_init : Bounded init := by
  refine ⟨by decide, by decide, ?_⟩
  intro i hi
  simp [init] at hi

theorem bounded_post {s s1 : State} {body : List Char} (hb : Bounded s)
    (h : handle_post s body = some s1) : Bounded s1 := by
  obtain ⟨hm, hc, hcur⟩ := hb
  obtain ⟨_, _, _, _, ⟨_, rfl⟩ | ⟨_, hlt, _, _, _, _, rfl⟩⟩ := handle_post_cases h
  · exact ⟨hm, hc, hcur⟩
  · refine ⟨hlt, hc, ?_⟩
    intro i hi
    have := hcur i hi
    simp only at this ⊢
    omega

theorem get_client_index_bounded {s : State} (id : List Char) (hb : Bounded s) :
    Bounded (get_client_index s id).2 := by
  obtain ⟨hm, hc, hcur⟩ := hb
  rcases get_client_index_cases s id with ⟨i, _, h⟩ | ⟨_, hlt, h⟩ | ⟨_, _, h⟩
  · rw [h]; exact ⟨hm, hc, hcur⟩
  · rw [h]
    refine ⟨hm, hlt, ?_⟩
    intro i hi
    simp only [store] at hi ⊢
    by_cases hi2 : i = s.total_clients
    · simp [hi2]
    · rw [if_neg hi2]; exact hcur i (by omega)
  · rw [h]; exact ⟨hm, hc, hcur⟩

theorem bounded_get {s : State} {url : List Char} {r : GetResult} (hb : Bounded s)
    (h : handle_get s url = some r) : Bounded r.state := by
  cases hid : clean_id url with
  | none => simp [handle_get, hid] at h
  | some id =>
    obtain ⟨-, -, -, -, htm, htc, hcl⟩ := handle_get_some hid h
    obtain ⟨hm, hc, hcur⟩ := get_client_index_bounded id hb
    have hlog := get_client_index_log s id
    refine ⟨by rw [htm]; exact hlog.2 ▸ hm, by rw [htc]; exact hc, ?_⟩
    intro i hi
    rw [hcl, htm]
    simp only [store]
    by_cases hi2 : i = (get_client_index s id).1
    · simp [hi2]
    · rw [if_neg hi2]
      rw [htc] at hi
      have := hcur i hi
      rw [hlog.2] at this
      exact this

theorem reachable_bounded : ∀ s, Reachable s → Bounded s :=
  state_invariant Bounded bounded_init (fun _ _ _ hb h => bounded_post hb h)
    (fun _ _ _ hb h => bounded_get hb h)

theorem url_decode_nil : url_decode [] = some [] := by decide

theorem get_param_value_absent (data key : List Char) (cap : Nat)
    (hk : (cstr key ++ ['=']).length < QUERY_KEY_SIZE)
    (h : strstr (cstr data) (cstr key ++ ['=']) = none) :
    get_param_value data key cap = some [] := by
  unfold get_param_value
  simp only [h]
  rw [if_neg (by omega)]

theorem handle_post_x (s : State) (h : s.total_messages < MAX_STORED_MSGS) :
    handle_post s "message=x".toList =
      some { s with
        message_store := store s.message_store s.total_messages ⟨"x".toList, []⟩
        total_messages := s.total_messages + 1 } := by
  unfold handle_post
  rw [show get_param_value "message=x".toList "message".toList MAX_MSG_LEN = some "x".toList
        by decide,
      show get_param_value "message=x".toList "client_id".toList MAX_ID_LEN = some [] by decide]
  simp only [h, and_true]
  rw [if_pos (by decide), show url_decode "x".toList = some "x".toList by decide, url_decode_nil]

theorem run_flood (n : Nat) : ∀ (s : State) (hist : List PollEvent),
    s.total_messages + n ≤ MAX_STORED_MSGS →
    ∃ s1, run (s, hist) (List.replicate n (Request.POST "message=x".toList)) = some (s1, hist) ∧
      s1.total_messages = s.total_messages + n := by
  induction n with
  | zero => intro s hist _; exact ⟨s, rfl, rfl⟩
  | succ n ih =>
    intro s hist h
    obtain ⟨s1, h1, h2⟩ := ih { s with
        message_store := store s.message_store s.total_messages ⟨"x".toList, []⟩
        total_messages := s.total_messages + 1 } hist (by simp only; omega)
    refine ⟨s1, ?_, by rw [h2]; simp only; omega⟩
    rw [List.replicate_succ, run]
    simp only [step, handle_post_x s (by omega), Option.map_some']
    exact h1

theorem flood_defined : (run (init, []) flood).isSome := by
  obtain ⟨s1, h1, _⟩ := run_flood MAX_STORED_MSGS init [] (by decide)
  rw [flood, h1]; rfl

theorem flood_total : (state_after flood).total_messages = MAX_STORED_MSGS := by
  obtain ⟨s1, h1, h2⟩ := run_flood MAX_STORED_MSGS init [] (by decide)
  rw [state_after, flood, h1]
  simpa [init] using h2

theorem step_get {s : State} {hist : List PollEvent} {url : List Char}
    {st1 : State × List PollEvent} (h : step (s, hist) (Request.GET url) = some st1) :
    ∃ id r, clean_id url = some id ∧ handle_get s url = some r ∧
      st1 = (r.state, hist ++ [⟨id, s.total_messages, r.body, r.delivered⟩]) := by
  simp only [step] at h
  split at h
  · rename_i id r hid hr
    simp only [Option.some.injEq] at h
    exact ⟨id, r, hid, hr, h.symm⟩
  · cases h

theorem step_post {s : State} {hist : List PollEvent} {body : List Char}
    {st1 : State × List PollEvent} (h : step (s, hist) (Request.POST body) = some st1) :
    ∃ s1, handle_post s body = some s1 ∧ st1 = (s1, hist) := by
  simp only [step, Option.map_eq_some'] at h
  obtain ⟨s1, h1, h2⟩ := h
  exact ⟨s1, h1, h2.symm⟩

/-- The three outcomes of a defined poll, by the branch `get_client_index` takes. -/
theorem poll_cases {s : State} {url : List Char} {id : CStr} {r : GetResult}
    (hid : clean_id url = some id) (hr : handle_get s url = some r) :
    r.state.message_store = s.message_store ∧ r.state.total_messages = s.total_messages ∧
    r.body = batch_of s r.delivered ∧
    ((∃ i, find_client s id = some i ∧ r.state.total_clients = s.total_clients ∧
        r.state.clients = store s.clients i
          { s.clients i with last_seen_index := s.total_messages } ∧
        r.delivered = unseen_from_others s id (s.clients i).last_seen_index s.total_messages) ∨
     (find_client s id = none ∧ s.total_clients < MAX_CLIENTS ∧
        r.state.total_clients = s.total_clients + 1 ∧
        r.state.clients = store s.clients s.total_clients ⟨id, s.total_messages⟩ ∧
        r.delivered = unseen_from_others s id 0 s.total_messages) ∨
     (find_client s id = none ∧ MAX_CLIENTS ≤ s.total_clients ∧
        r.state.total_clients = s.total_clients ∧
        r.state.clients = store s.clients 0
          { s.clients 0 with last_seen_index := s.total_messages } ∧
        r.delivered = unseen_from_others s id (s.clients 0).last_seen_index s.total_messages)) := by
  obtain ⟨hd, hb, -, hms, htm, htc, hcl⟩ := handle_get_some hid hr
  have hc := clean_id_cstr hid
  have hl := clean_id_length hid
  refine ⟨hms, htm, hb, ?_⟩
  rcases get_client_index_cases s id with ⟨i, hf, h⟩ | ⟨hf, hlt, h⟩ | ⟨hf, hge, h⟩
  · rw [hc] at hf
    rw [h] at hd htc hcl
    exact Or.inl ⟨i, hf, htc, hcl, hd⟩
  · rw [hc] at hf
    rw [h] at hd htc hcl
    refine Or.inr (Or.inl ⟨hf, hlt, htc, ?_, ?_⟩)
    · rw [hcl]
      funext j
      simp only [store, hc, if_true]
      rw [List.take_of_length_le (by omega)]
      by_cases hj : j = s.total_clients
      · simp only [hj, if_true]
      · simp only [hj, if_false]
    · rw [hd]; simp [store]
  · rw [hc] at hf
    rw [h] at hd htc hcl
    exact Or.inr (Or.inr ⟨hf, hge, htc, hcl, hd⟩)

theorem polls_of_snoc (hist : List PollEvent) (e : PollEvent) (X : CStr) :
    polls_of (hist ++ [e]) X = if e.id = X then polls_of hist X ++ [e] else polls_of hist X := by
  unfold polls_of
  rw [List.filter_append]
  by_cases h : e.id = X <;> simp [List.filter_cons, h]

theorem bodies_to_snoc (hist : List PollEvent) (e : PollEvent) (X : CStr) :
    bodies_to (hist ++ [e]) X = if e.id = X then bodies_to hist X ++ e.body else bodies_to hist X := by
  unfold bodies_to
  rw [polls_of_snoc]
  by_cases h : e.id = X <;> simp [h]

theorem delivered_to_snoc (hist : List PollEvent) (e : PollEvent) (X : CStr) :
    delivered_to (hist ++ [e]) X =
      if e.id = X then delivered_to hist X ++ e.delivered else delivered_to hist X := by
  unfold delivered_to
  rw [polls_of_snoc]
  by_cases h : e.id = X <;> simp [h]

theorem last_total_snoc (hist : List PollEvent) (e : PollEvent) (X : CStr) :
    last_total (hist ++ [e]) X = if e.id = X then e.total else last_total hist X := by
  unfold last_total
  rw [polls_of_snoc]
  by_cases h : e.id = X <;> simp [h]

theorem polls_of_not_mem (hist : List PollEvent) (X : CStr)
    (h : X ∉ hist.map PollEvent.id) : polls_of hist X = [] := by
  unfold polls_of
  rw [List.filter_eq_nil_iff]
  intro e he
  simp only [decide_eq_true_eq]
  intro hx
  exact h (List.mem_map.mpr ⟨e, he, hx⟩)

theorem find_client_stable {s t : State} {X : CStr} {i : Nat}
    (h1 : s.total_clients ≤ t.total_clients)
    (h2 : ∀ k, k < s.total_clients → (t.clients k).client_id = (s.clients k).client_id)
    (h : find_client s X = some i) : find_client t X = some i := by
  obtain ⟨hi, hx, hmin⟩ := find_client_some h
  apply find_client_of_first (by omega)
  · rw [h2 i hi]; exact hx
  · intro j hj
    rw [h2 j (by omega)]; exact hmin j hj

theorem find_client_none_stable {s t : State} {X : CStr}
    (h1 : t.total_clients = s.total_clients)
    (h2 : ∀ k, k < s.total_clients → (t.clients k).client_id = (s.clients k).client_id)
    (h : find_client s X = none) : find_client t X = none := by
  have hn := find_client_none h
  unfold find_client
  apply (find_range_none _ _).mpr
  intro j hj
  rw [h1] at hj
  simpa [h2 j hj] using hn j hj

theorem mem_unseen {s : State} {id : CStr} {c L k : Nat}
    (h : k ∈ unseen_from_others s id c L) :
    c ≤ k ∧ k < L ∧ (s.message_store k).sender_id ≠ id := by
  simp only [unseen_from_others, List.mem_filter, List.mem_range'_1, decide_eq_true_eq] at h
  exact ⟨h.1.1, by omega, h.2⟩

theorem nodup_unseen (s : State) (id : CStr) (c L : Nat) :
    (unseen_from_others s id c L).Nodup :=
  (List.nodup_range' c (L - c)).filter _

/-- Frame of a defined poll on the registry: it never shrinks, keeps the
identity stored in every existing slot, and lowers no cursor. -/
theorem poll_frame {s : State} {url : List Char} {id : CStr} {r : GetResult}
    (hb : Bounded s) (hid : clean_id url = some id) (hr : handle_get s url = some r) :
    s.total_clients ≤ r.state.total_clients ∧
    (MAX_CLIENTS ≤ s.total_clients → r.state.total_clients = s.total_clients) ∧
    (∀ k, k < s.total_clients → (r.state.clients k).client_id = (s.clients k).client_id) ∧
    (∀ k, k < s.total_clients →
      (s.clients k).last_seen_index ≤ (r.state.clients k).last_seen_index) := by
  obtain ⟨-, -, hcur⟩ := hb
  obtain ⟨-, -, -, hc⟩ := poll_cases hid hr
  rcases hc with ⟨i, hf, htc, hcl, -⟩ | ⟨hf, hlt, htc, hcl, -⟩ | ⟨hf, hge, htc, hcl, -⟩
  · refine ⟨by omega, fun _ => htc, ?_, ?_⟩ <;> intro k hk <;> rw [hcl] <;> simp only [store] <;>
      by_cases hki : k = i
    · rw [if_pos hki, hki]
    · rw [if_neg hki]
    · rw [if_pos hki]; subst hki; exact hcur k hk
    · rw [if_neg hki]
  · refine ⟨by omega, fun h => by omega, ?_, ?_⟩ <;> intro k hk <;> rw [hcl] <;>
      simp only [store] <;> rw [if_neg (by omega)]
  · refine ⟨by omega, fun _ => htc, ?_, ?_⟩ <;> intro k hk <;> rw [hcl] <;> simp only [store] <;>
      by_cases hki : k = 0
    · rw [if_pos hki, hki]
    · rw [if_neg hki]
    · rw [if_pos hki]; subst hki; exact hcur 0 hk
    · rw [if_neg hki]

theorem slot_of_some {s : State} {X : CStr} {i : Nat} (h : find_client s X = some i) :
    slot s X = i := by
  simp [slot, h]

theorem slot_of_none {s : State} {X : CStr} (h : find_client s X = none) : slot s X = 0 := by
  simp [slot, h]

/-- What a defined poll does for the polling identity itself: the range it
reads starts at the cursor of its slot (at `0` for a session created by this
poll) and its slot ends with cursor `total_messages`. -/
theorem poll_self {s : State} {url : List Char} {id : CStr} {r : GetResult}
    (hb : Bounded s) (hid : clean_id url = some id) (hr : handle_get s url = some r) :
    ∃ c, r.delivered = unseen_from_others s id c s.total_messages ∧ c ≤ s.total_messages ∧
      ((find_client r.state id).isSome ∨ MAX_CLIENTS ≤ r.state.total_clients) ∧
      (r.state.clients (slot r.state id)).last_seen_index = s.total_messages ∧
      (((find_client s id).isSome ∨ MAX_CLIENTS ≤ s.total_clients) →
        c = (s.clients (slot s id)).last_seen_index) ∧
      (¬((find_client s id).isSome ∨ MAX_CLIENTS ≤ s.total_clients) → c = 0) := by
  obtain ⟨hf1, hf2, hf3, -⟩ := poll_frame hb hid hr
  obtain ⟨-, hmc, hcur⟩ := hb
  obtain ⟨-, -, -, hc⟩ := poll_cases hid hr
  rcases hc with ⟨i, hf, htc, hcl, hd⟩ | ⟨hf, hlt, htc, hcl, hd⟩ | ⟨hf, hge, htc, hcl, hd⟩
  · have hi := (find_client_some hf).1
    have hf' : find_client r.state id = some i := find_client_stable hf1 hf3 hf
    refine ⟨_, hd, hcur i hi, Or.inl (by simp [hf']), ?_, ?_, ?_⟩
    · rw [slot_of_some hf', hcl]; simp [store]
    · intro _; rw [slot_of_some hf]
    · intro h; exact absurd (Or.inl (by simp [hf])) h
  · have hf' : find_client r.state id = some s.total_clients := by
      apply find_client_of_first (by omega)
      · rw [hcl]; simp [store]
      · intro j hj
        rw [hf3 j hj]
        exact find_client_none hf j hj
    refine ⟨0, hd, Nat.zero_le _, Or.inl (by simp [hf']), ?_, ?_, ?_⟩
    · rw [slot_of_some hf', hcl]; simp [store]
    · intro h
      rcases h with h | h
      · simp [hf] at h
      · omega
    · intro _; rfl
  · have hf' : find_client r.state id = none := find_client_none_stable htc hf3 hf
    have h0 : 0 < s.total_clients := by simp only [MAX_CLIENTS] at hge; omega
    refine ⟨_, hd, hcur 0 h0, Or.inr (by omega), ?_, ?_, ?_⟩
    · rw [slot_of_none hf', hcl]; simp [store]
    · intro _; rw [slot_of_none hf]
    · intro h; exact absurd (Or.inr hge) h

/-- What a defined poll does for an identity that is registered or meets a
full registry: its slot stays the same and the cursor there does not drop. -/
theorem poll_other {s : State} {url : List Char} {id : CStr} {r : GetResult} (X : CStr)
    (hb : Bounded s) (hid : clean_id url = some id) (hr : handle_get s url = some r)
    (hX : (find_client s X).isSome ∨ MAX_CLIENTS ≤ s.total_clients) :
    ((find_client r.state X).isSome ∨ MAX_CLIENTS ≤ r.state.total_clients) ∧
    slot r.state X = slot s X ∧
    (s.clients (slot s X)).last_seen_index ≤ (r.state.clients (slot s X)).last_seen_index := by
  obtain ⟨hf1, hf2, hf3, hf4⟩ := poll_frame hb hid hr
  cases hf : find_client s X with
  | some i =>
    have hf' : find_client r.state X = some i := find_client_stable hf1 hf3 hf
    refine ⟨Or.inl (by simp [hf']), by rw [slot_of_some hf, slot_of_some hf'], ?_⟩
    rw [slot_of_some hf]
    exact hf4 i (find_client_some hf).1
  | none =>
    have hge : MAX_CLIENTS ≤ s.total_clients := by
      rcases hX with h | h
      · simp [hf] at h
      · exact h
    have hf' : find_client r.state X = none := find_client_none_stable (hf2 hge) hf3 hf
    refine ⟨Or.inr (by omega), by rw [slot_of_none hf, slot_of_none hf'], ?_⟩
    rw [slot_of_none hf]
    exact hf4 0 (by simp only [MAX_CLIENTS] at hge; omega)

theorem nodup_inv_init : NoDupInv (init, []) := by
  refine ⟨bounded_init, ?_⟩
  intro X
  simp [delivered_to, polls_of]

theorem nodup_inv_step (st : State × List PollEvent) (req : Request)
    (st1 : State × List PollEvent) (hP : NoDupInv st) (hs : step st req = some st1) :
    NoDupInv st1 := by
  obtain ⟨s, hist⟩ := st
  obtain ⟨hb, hinv⟩ := hP
  cases req with
  | POST body =>
    obtain ⟨s1, h1, rfl⟩ := step_post hs
    obtain ⟨hc, htc, -⟩ := handle_post_sessions h1
    have hfc : ∀ X, find_client s1 X = find_client s X := by
      intro X; unfold find_client; rw [hc, htc]
    have hsl : ∀ X, slot s1 X = slot s X := by
      intro X; unfold slot; rw [hfc]
    refine ⟨bounded_post hb h1, ?_⟩
    intro X
    obtain ⟨hnd, hrest⟩ := hinv X
    refine ⟨hnd, ?_⟩
    intro hX
    obtain ⟨h2, h3⟩ := hrest hX
    simp only at h2 h3 ⊢
    rw [hfc, htc, hsl, hc]
    exact ⟨h2, h3⟩
  | GET url =>
    obtain ⟨id, r, hid, hr, rfl⟩ := step_get hs
    refine ⟨bounded_get hb hr, ?_⟩
    intro X
    obtain ⟨hnd, hrest⟩ := hinv X
    simp only at hnd hrest ⊢
    rw [delivered_to_snoc]
    simp only
    by_cases hX : id = X
    · subst hX
      rw [if_pos rfl]
      obtain ⟨c, hd, hcL, hfull, hcur, hc1, hc2⟩ := poll_self hb hid hr
      have hold : ∀ k, k ∈ delivered_to hist id → k < c := by
        intro k hk
        by_cases hmem : id ∈ hist.map PollEvent.id
        · obtain ⟨h2, h3⟩ := hrest hmem
          rw [hc1 h2]; exact h3 k hk
        · simp [delivered_to, polls_of_not_mem hist id hmem] at hk
      refine ⟨?_, ?_⟩
      · rw [List.nodup_append]
        refine ⟨hnd, by rw [hd]; exact nodup_unseen _ _ _ _, ?_⟩
        intro k hk1 hk2
        rw [hd] at hk2
        have := hold k hk1
        have := (mem_unseen hk2).1
        omega
      · intro _
        refine ⟨hfull, ?_⟩
        intro k hk
        rw [hcur]
        rcases List.mem_append.mp hk with h | h
        · have := hold k h; omega
        · rw [hd] at h; exact (mem_unseen h).2.1
    · rw [if_neg hX]
      refine ⟨hnd, ?_⟩
      intro hmem
      have hmem' : X ∈ hist.map PollEvent.id := by
        simp only [List.map_append, List.map_cons, List.map_nil, List.mem_append,
          List.mem_singleton] at hmem
        rcases hmem with h | h
        · exact h
        · exact absurd h.symm hX
      obtain ⟨h2, h3⟩ := hrest hmem'
      obtain ⟨h4, h5, h6⟩ := poll_other X hb hid hr h2
      refine ⟨h4, ?_⟩
      intro k hk
      rw [h5]
      exact Nat.lt_of_lt_of_le (h3 k hk) h6

theorem pollers_length_mono (hist : List PollEvent) (e : PollEvent) :
    (pollers hist).length ≤ (pollers (hist ++ [e])).length := by
  unfold pollers
  apply List.Subperm.length_le
  apply (List.nodup_dedup _).subperm
  intro x hx
  rw [List.mem_dedup] at hx ⊢
  simp only [List.map_append, List.mem_append]
  exact Or.inl hx

theorem registered_length (s : State) : (registered s).length = s.total_clients := by
  simp [registered]

theorem mem_registered {s : State} {X : CStr} :
    X ∈ registered s ↔ ∃ i, i < s.total_clients ∧ (s.clients i).client_id = X := by
  simp [registered]

theorem not_mem_registered {s : State} {X : CStr} (h : find_client s X = none) :
    X ∉ registered s := by
  rw [mem_registered]
  rintro ⟨i, hi, hx⟩
  exact find_client_none h i hi hx

theorem mem_registered_of_find {s : State} {X : CStr} {i : Nat} (h : find_client s X = some i) :
    X ∈ registered s :=
  mem_registered.mpr ⟨i, (find_client_some h).1, (find_client_some h).2.1⟩

theorem registered_same {s t : State} (h1 : t.total_clients = s.total_clients)
    (h2 : ∀ k, k < s.total_clients → (t.clients k).client_id = (s.clients k).client_id) :
    registered t = registered s := by
  unfold registered
  rw [h1]
  apply List.map_congr_left
  intro k hk
  exact h2 k (List.mem_range.mp hk)

theorem registered_grow {s t : State} {Y : CStr} (h1 : t.total_clients = s.total_clients + 1)
    (h2 : ∀ k, k < s.total_clients → (t.clients k).client_id = (s.clients k).client_id)
    (h3 : (t.clients s.total_clients).client_id = Y) :
    registered t = registered s ++ [Y] := by
  unfold registered
  rw [h1, List.range_succ, List.map_append, List.map_singleton, h3]
  congr 1
  apply List.map_congr_left
  intro k hk
  exact h2 k (List.mem_range.mp hk)

theorem unseen_append (s : State) (X : CStr) {c L : Nat} (h : c ≤ L) :
    unseen_from_others s X 0 c ++ unseen_from_others s X c L = unseen_from_others s X 0 L := by
  unfold unseen_from_others
  rw [← List.filter_append]
  congr 1
  have := List.range'_append 0 c (L - c) 1
  simp only [Nat.sub_zero, Nat.one_mul, Nat.zero_add] at this ⊢
  rw [this]
  congr 1
  omega

theorem batch_of_append (s : State) (l1 l2 : List Nat) :
    batch_of s (l1 ++ l2) = batch_of s l1 ++ batch_of s l2 := by
  simp [batch_of, List.flatMap_append]

theorem batch_congr {s t : State} (X : CStr) (L : Nat)
    (h : ∀ k, k < L → t.message_store k = s.message_store k) :
    batch_of t (unseen_from_others t X 0 L) = batch_of s (unseen_from_others s X 0 L) := by
  have hu : unseen_from_others t X 0 L = unseen_from_others s X 0 L := by
    unfold unseen_from_others
    apply List.filter_congr
    intro k hk
    rw [List.mem_range'_1] at hk
    rw [h k (by omega)]
  rw [hu]
  unfold batch_of
  apply List.flatMap_congr
  intro k hk
  rw [h k (mem_unseen hk).2.1]

theorem handle_post_log_stable {s s1 : State} {body : List Char}
    (h : handle_post s body = some s1) :
    ∀ k, k < s.total_messages → s1.message_store k = s.message_store k := by
  intro k hk
  obtain ⟨_, _, _, _, ⟨_, rfl⟩ | ⟨_, _, _, _, _, _, rfl⟩⟩ := handle_post_cases h
  · rfl
  · simp only [store]; rw [if_neg (by omega)]

theorem noloss_inv_init : NoLossInv (init, []) := by
  refine ⟨bounded_init, ?_⟩
  intro _
  refine ⟨by simp [registered, init], ?_, ?_⟩
  · intro X hX; simp [registered, init] at hX
  · intro X hX; simp at hX

theorem registry_not_full {s : State} {hist : List PollEvent} {e : PollEvent}
    (hcap : (pollers (hist ++ [e])).length ≤ MAX_CLIENTS)
    (hnd : (registered s).Nodup)
    (hsub : ∀ X, X ∈ registered s → X ∈ hist.map PollEvent.id)
    (hf : find_client s e.id = none) : s.total_clients < MAX_CLIENTS := by
  have h1 : (registered s ++ [e.id]).Nodup := by
    rw [List.nodup_append]
    refine ⟨hnd, List.nodup_singleton _, ?_⟩
    intro X hX1 hX2
    rw [List.mem_singleton] at hX2
    subst hX2
    exact not_mem_registered hf hX1
  have h2 : registered s ++ [e.id] ⊆ pollers (hist ++ [e]) := by
    intro X hX
    unfold pollers
    rw [List.mem_dedup]
    simp only [List.map_append, List.map_cons, List.map_nil, List.mem_append,
      List.mem_singleton] at hX ⊢
    rcases hX with h | h
    · exact Or.inl (hsub X h)
    · exact Or.inr h
  have h3 := (h1.subperm h2).length_le
  rw [List.length_append, registered_length] at h3
  simp only [List.length_singleton] at h3
  omega

theorem noloss_inv_step (st : State × List PollEvent) (req : Request)
    (st1 : State × List PollEvent) (hP : NoLossInv st) (hs : step st req = some st1) :
    NoLossInv st1 := by
  obtain ⟨s, hist⟩ := st
  obtain ⟨hb0, hinv⟩ := hP
  have hb : Bounded s := hb0
  have hcurs : ∀ i, i < s.total_clients → (s.clients i).last_seen_index ≤ s.total_messages :=
    hb.2.2
  cases req with
  | POST body =>
    obtain ⟨s1, h1, rfl⟩ := step_post hs
    obtain ⟨hc, htc, -⟩ := handle_post_sessions h1
    have hfc : ∀ X, find_client s1 X = find_client s X := by
      intro X; unfold find_client; rw [hc, htc]
    have hreg : registered s1 = registered s := by
      unfold registered; rw [hc, htc]
    refine ⟨bounded_post hb h1, ?_⟩
    intro hcap
    obtain ⟨hnd, hsub, hper⟩ := hinv hcap
    simp only at hnd hsub hper ⊢
    rw [hreg]
    refine ⟨hnd, hsub, ?_⟩
    intro X hX
    obtain ⟨i, hf, hcur, hbod⟩ := hper X hX
    refine ⟨i, by rw [hfc]; exact hf, by rw [hc]; exact hcur, ?_⟩
    rw [hbod]
    symm
    apply batch_congr
    intro k hk
    apply handle_post_log_stable h1
    have := hcurs i (find_client_some hf).1
    omega
  | GET url =>
    obtain ⟨id, r, hid, hr, rfl⟩ := step_get hs
    refine ⟨bounded_get hb hr, ?_⟩
    intro hcap1
    have hcap : (pollers hist).length ≤ MAX_CLIENTS :=
      Nat.le_trans (pollers_length_mono hist _) hcap1
    obtain ⟨hnd, hsub, hper⟩ := hinv hcap
    obtain ⟨hf1, hf2, hf3, hf4⟩ := poll_frame hb hid hr
    obtain ⟨hms, htm, hbody, hcases⟩ := poll_cases hid hr
    simp only at hnd hsub hper ⊢
    have hmsall : ∀ (X : CStr) (L : Nat),
        batch_of r.state (unseen_from_others r.state X 0 L) =
          batch_of s (unseen_from_others s X 0 L) := by
      intro X L
      apply batch_congr
      intro k _
      rw [hms]
    -- an identity other than the polling one keeps its session untouched
    have hother : ∀ idx v, r.state.clients = store s.clients idx v →
        (∀ i, find_client s id = some i → idx = i) →
        (find_client s id = none → idx = s.total_clients) →
        ∀ X, X ≠ id → X ∈ hist.map PollEvent.id →
        ∃ i, find_client r.state X = some i ∧
          (r.state.clients i).last_seen_index =
            last_total (hist ++ [⟨id, s.total_messages, r.body, r.delivered⟩]) X ∧
          bodies_to (hist ++ [⟨id, s.total_messages, r.body, r.delivered⟩]) X =
            batch_of r.state (unseen_from_others r.state X 0
              (last_total (hist ++ [⟨id, s.total_messages, r.body, r.delivered⟩]) X)) := by
      intro idx v hcl hidx1 hidx2 X hne hX
      obtain ⟨i, hf, hcur, hbod⟩ := hper X hX
      have hne' : ¬ id = X := fun h => hne h.symm
      have hi := find_client_some hf
      have hii : i ≠ idx := by
        intro hEq
        cases hfid : find_client s id with
        | some j =>
          have := hidx1 j hfid
          have hj := find_client_some hfid
          rw [← this, ← hEq, hi.2.1] at hj
          exact hne hj.2.1
        | none =>
          have := hidx2 hfid
          omega
      refine ⟨i, find_client_stable hf1 hf3 hf, ?_, ?_⟩
      · rw [last_total_snoc, if_neg hne', hcl]
        simp only [store]
        rw [if_neg hii]
        exact hcur
      · rw [bodies_to_snoc, last_total_snoc, if_neg hne', if_neg hne', hmsall]
        exact hbod
    rcases hcases with ⟨i, hf, htc, hcl, hd⟩ | ⟨hf, hlt, htc, hcl, hd⟩ | ⟨hf, hge, -, -, -⟩
    · -- the polling identity already has a session
      have hreg : registered r.state = registered s := registered_same htc hf3
      have hidmem : id ∈ hist.map PollEvent.id := hsub id (mem_registered_of_find hf)
      rw [hreg]
      refine ⟨hnd, ?_, ?_⟩
      · intro X hX
        simp only [List.map_append, List.mem_append]
        exact Or.inl (hsub X hX)
      · intro X hX
        by_cases hXid : X = id
        · subst hXid
          obtain ⟨j, hfj, hcur, hbod⟩ := hper X hidmem
          rw [hf] at hfj
          simp only [Option.some.injEq] at hfj
          subst hfj
          refine ⟨i, find_client_stable hf1 hf3 hf, ?_, ?_⟩
          · rw [last_total_snoc, if_pos rfl, hcl]
            simp [store]
          · rw [bodies_to_snoc, last_total_snoc, if_pos rfl, if_pos rfl, hmsall, hbod]
            simp only
            rw [hbody, hd, hcur, ← batch_of_append, unseen_append]
            rw [← hcur]
            exact hcurs i (find_client_some hf).1
        · apply hother i _ hcl (fun j hj => by rw [hf] at hj; cases hj; rfl)
            (fun hn => by rw [hf] at hn; cases hn) X hXid
          simp only [List.map_append, List.map_cons, List.map_nil, List.mem_append,
            List.mem_singleton] at hX
          rcases hX with h | h
          · exact h
          · exact absurd h hXid
    · -- the poll creates the session of the polling identity
      have hreg : registered r.state = registered s ++ [id] :=
        registered_grow htc hf3 (by rw [hcl]; simp [store])
      have hidnot : id ∉ hist.map PollEvent.id := by
        intro hmem
        obtain ⟨j, hfj, -⟩ := hper id hmem
        rw [hf] at hfj
        cases hfj
      rw [hreg]
      refine ⟨?_, ?_, ?_⟩
      · rw [List.nodup_append]
        refine ⟨hnd, List.nodup_singleton _, ?_⟩
        intro X hX1 hX2
        rw [List.mem_singleton] at hX2
        subst hX2
        exact not_mem_registered hf hX1
      · intro X hX
        simp only [List.map_append, List.map_cons, List.map_nil, List.mem_append,
          List.mem_singleton] at hX ⊢
        rcases hX with h | h
        · exact Or.inl (hsub X h)
        · exact Or.inr h
      · intro X hX
        by_cases hXid : X = id
        · subst hXid
          have hf' : find_client r.state X = some s.total_clients := by
            apply find_client_of_first (by omega)
            · rw [hcl]; simp [store]
            · intro j hj
              rw [hf3 j hj]
              exact find_client_none hf j hj
          refine ⟨s.total_clients, hf', ?_, ?_⟩
          · rw [last_total_snoc, if_pos rfl, hcl]
            simp [store]
          · rw [bodies_to_snoc, last_total_snoc, if_pos rfl, if_pos rfl, hmsall]
            simp only
            rw [hbody, hd]
            simp [bodies_to, polls_of_not_mem hist X hidnot]
        · apply hother s.total_clients _ hcl (fun j hj => by rw [hf] at hj; cases hj)
            (fun _ => rfl) X hXid
          simp only [List.map_append, List.map_cons, List.map_nil, List.mem_append,
            List.mem_singleton] at hX
          rcases hX with h | h
          · exact h
          · exact absurd h hXid
    · -- the fallback needs a full registry, hence more than `MAX_CLIENTS` pollers
      have := registry_not_full (e := ⟨id, s.total_messages, r.body, r.delivered⟩)
        hcap1 hnd hsub hf
      omega

theorem batch_of_congr_below {s t : State} (l : List Nat) (L : Nat)
    (hl : ∀ k, k ∈ l → k < L) (h : ∀ k, k < L → t.message_store k = s.message_store k) :
    batch_of t l = batch_of s l := by
  unfold batch_of
  apply List.flatMap_congr
  intro k hk
  rw [h k (hl k hk)]

theorem bodies_inv_init : BodiesInv (init, []) := by
  intro e he
  simp at he

theorem bodies_inv_step (st : State × List PollEvent) (req : Request)
    (st1 : State × List PollEvent) (hP : BodiesInv st) (hs : step st req = some st1) :
    BodiesInv st1 := by
  obtain ⟨s, hist⟩ := st
  cases req with
  | POST body =>
    obtain ⟨s1, h1, rfl⟩ := step_post hs
    intro e he
    obtain ⟨h2, h3⟩ := hP e he
    have hle := (handle_post_sessions h1).2.2
    simp only at h2 h3 he ⊢
    refine ⟨?_, fun k hk => Nat.lt_of_lt_of_le (h3 k hk) hle⟩
    rw [h2]
    symm
    exact batch_of_congr_below _ _ h3 (handle_post_log_stable h1)
  | GET url =>
    obtain ⟨id, r, hid, hr, rfl⟩ := step_get hs
    obtain ⟨hd, hbody, -, hms, htm, -⟩ := handle_get_some hid hr
    have hsame : ∀ l, batch_of r.state l = batch_of s l := by
      intro l; simp only [batch_of, hms]
    intro e he
    simp only [List.mem_append, List.mem_singleton] at he
    simp only [hsame, htm]
    rcases he with he | he
    · exact hP e he
    · subst he
      refine ⟨hbody, ?_⟩
      intro k hk
      simp only at hk
      rw [hd] at hk
      exact (mem_unseen hk).2.1

theorem run_state_history (reqs : List Request) (h : (run (init, []) reqs).isSome) :
    run (init, []) reqs = some (state_after reqs, history_after reqs) := by
  obtain ⟨st, hst⟩ := Option.isSome_iff_exists.mp h
  simp [state_after, history_after, hst]

theorem demo_chat_defined : (run (init, []) demo_chat).isSome := by decide

set_option maxRecDepth 100000 in
theorem overflow_chat_defined : (run (init, []) overflow_chat).isSome := by decide

/-! ## Polling -/

/-- C1. No self-echo: in every state (so in every reachable one), the body
returned by a poll for identity `id` is the text of exactly the log entries
the collecting loop appended, and no entry whose `sender_id` equals `id` is
among them, wherever its index lies. -/
theorem no_self_echo (s : State) (url : List Char) (id : CStr) (r : GetResult)
    (hid : clean_id url = some id) (hr : handle_get s url = some r) :
    r.body = batch_of s r.delivered ∧
      ∀ i, (s.message_store i).sender_id = id → i ∉ r.delivered := by
  obtain ⟨hd, hb, -⟩ := handle_get_some hid hr
  refine ⟨hb, ?_⟩
  intro i hi hmem
  rw [hd] at hmem
  simp [unseen_from_others, hi] at hmem

theorem demo_alice_poll_defined :
    (handle_get (state_after demo_requests) "/receive?client_id=alice".toList).isSome := by
  decide

theorem no_self_echo_witness :
    ∃ r, handle_get (state_after demo_requests) "/receive?client_id=alice".toList = some r ∧
      r.delivered = [1] ∧ r.body = "hi there\n".toList ∧
      r.body = batch_of (state_after demo_requests) r.delivered ∧
      ∀ i, ((state_after demo_requests).message_store i).sender_id = "alice".toList →
        i ∉ r.delivered :=
  ⟨_, (Option.some_get demo_alice_poll_defined).symm, by decide, by decide,
    no_self_echo (state_after demo_requests) "/receive?client_id=alice".toList "alice".toList _
      (by decide) (Option.some_get demo_alice_poll_defined).symm⟩

/-- C2. Poll output: for every state and identity, with `c` the cursor of the
session the poll resolves to and `L = total_messages`, the batch the loop of
`handle_get` builds, and the body a defined poll returns, is the concatenation
in increasing index order of `msg` followed by one newline over exactly the
entries with index in `[c, L)` whose `sender_id` differs from the identity. -/
theorem poll_output (s : State) (url : List Char) (id : CStr) (r : GetResult) (c : Nat)
    (hid : clean_id url = some id) (hr : handle_get s url = some r)
    (hc : ((get_client_index s id).2.clients (get_client_index s id).1).last_seen_index = c) :
    (collect (get_client_index s id).2 id c).1 =
      ((List.range' c (s.total_messages - c)).filter
        (fun i => decide ((s.message_store i).sender_id ≠ id))).flatMap
        (fun i => (s.message_store i).msg ++ ['\n']) ∧
    r.body =
      ((List.range' c (s.total_messages - c)).filter
        (fun i => decide ((s.message_store i).sender_id ≠ id))).flatMap
        (fun i => (s.message_store i).msg ++ ['\n']) := by
  obtain ⟨hd, hb, -⟩ := handle_get_some hid hr
  have hlog := get_client_index_log s id
  constructor
  · rw [collect_eq]
    simp only [batch_of, unseen_from_others, hlog.1, hlog.2]
  · rw [hb, hd, hc]
    rfl

theorem demo_carol_poll_defined :
    (handle_get (state_after demo_requests) "/receive?client_id=carol".toList).isSome := by
  decide

theorem poll_output_witness :
    ∃ r, handle_get (state_after demo_requests) "/receive?client_id=carol".toList = some r ∧
      ((get_client_index (state_after demo_requests) "carol".toList).2.clients
        (get_client_index (state_after demo_requests) "carol".toList).1).last_seen_index = 0 ∧
      (state_after demo_requests).total_messages = 2 ∧
      r.body = "Hello World\nhi there\n".toList ∧
      r.body =
        ((List.range' 0 ((state_after demo_requests).total_messages - 0)).filter
          (fun i => decide (((state_after demo_requests).message_store i).sender_id ≠
            "carol".toList))).flatMap
          (fun i => ((state_after demo_requests).message_store i).msg ++ ['\n']) :=
  ⟨_, (Option.some_get demo_carol_poll_defined).symm, by decide, by decide, by decide,
    (poll_output (state_after demo_requests) "/receive?client_id=carol".toList "carol".toList _ 0
      (by decide) (Option.some_get demo_carol_poll_defined).symm (by decide)).2⟩

theorem demo_bob_poll_defined :
    (handle_get (state_after demo_session) "/receive?client_id=bob".toList).isSome := by
  decide

/-- C3. Cursor update: after a poll, the cursor of the session the poll
resolved to equals `total_messages` as it was at the poll, whatever was
returned or filtered; the log length is unchanged and every other slot of
`clients` is exactly as before. -/
theorem poll_sets_cursor (s : State) (url : List Char) (id : CStr) (r : GetResult)
    (hid : clean_id url = some id) (hr : handle_get s url = some r) :
    (r.state.clients (get_client_index s id).1).last_seen_index = s.total_messages ∧
    r.state.total_messages = s.total_messages ∧
    ∀ j, j ≠ (get_client_index s id).1 → r.state.clients j = s.clients j := by
  obtain ⟨-, -, -, -, htm, -, hcl⟩ := handle_get_some hid hr
  refine ⟨?_, htm, ?_⟩
  · rw [hcl]; simp [store]
  · intro j hj
    rw [hcl]
    simp only [store]
    rw [if_neg hj]
    exact get_client_index_other s id j hj

theorem poll_sets_cursor_witness :
    ∃ r, handle_get (state_after demo_session) "/receive?client_id=bob".toList = some r ∧
      (get_client_index (state_after demo_session) "bob".toList).1 = 0 ∧
      (state_after demo_session).total_messages = 2 ∧
      ((state_after demo_session).clients 0).last_seen_index = 1 ∧
      (r.state.clients (get_client_index (state_after demo_session) "bob".toList).1).last_seen_index
        = (state_after demo_session).total_messages ∧
      r.state.total_messages = (state_after demo_session).total_messages ∧
      ∀ j, j ≠ (get_client_index (state_after demo_session) "bob".toList).1 →
        r.state.clients j = (state_after demo_session).clients j :=
  ⟨_, (Option.some_get demo_bob_poll_defined).symm, by decide, by decide, by decide,
    poll_sets_cursor (state_after demo_session) "/receive?client_id=bob".toList "bob".toList _
      (by decide) (Option.some_get demo_bob_poll_defined).symm⟩

/-- C4. Cursor monotonicity: in every state reachable from the initial one,
each session's cursor is at most `total_messages`, and neither a publish nor
a poll decreases the cursor of a session that exists. -/
theorem cursor_monotone (s : State) (hs : Reachable s) :
    (∀ i, i < s.total_clients → (s.clients i).last_seen_index ≤ s.total_messages) ∧
    (∀ body s1, handle_post s body = some s1 → ∀ i, i < s.total_clients →
      (s.clients i).last_seen_index ≤ (s1.clients i).last_seen_index) ∧
    (∀ url r, handle_get s url = some r → ∀ i, i < s.total_clients →
      (s.clients i).last_seen_index ≤ (r.state.clients i).last_seen_index) := by
  obtain ⟨-, -, hcur⟩ := reachable_bounded s hs
  refine ⟨hcur, ?_, ?_⟩
  · intro body s1 h i _
    rw [(handle_post_sessions h).1]
  · intro url r h i hi
    cases hid : clean_id url with
    | none => simp [handle_get, hid] at h
    | some id =>
      obtain ⟨-, -, -, -, -, -, hcl⟩ := handle_get_some hid h
      rw [hcl]
      simp only [store]
      by_cases hi2 : i = (get_client_index s id).1
      · rw [if_pos hi2]; exact hcur i hi
      · rw [if_neg hi2, get_client_index_old s id i hi]

theorem demo_session_defined : (run (init, []) demo_session).isSome := by
  decide

theorem cursor_monotone_witness :
    (state_after demo_session).total_clients = 2 ∧
    ((state_after demo_session).clients 0).last_seen_index = 1 ∧
    ((state_after demo_session).clients 1).last_seen_index = 2 ∧
    ((∀ i, i < (state_after demo_session).total_clients →
      ((state_after demo_session).clients i).last_seen_index ≤
        (state_after demo_session).total_messages) ∧
    (∀ body s1, handle_post (state_after demo_session) body = some s1 →
      ∀ i, i < (state_after demo_session).total_clients →
        ((state_after demo_session).clients i).last_seen_index ≤
          (s1.clients i).last_seen_index) ∧
    (∀ url r, handle_get (state_after demo_session) url = some r →
      ∀ i, i < (state_after demo_session).total_clients →
        ((state_after demo_session).clients i).last_seen_index ≤
          (r.state.clients i).last_seen_index)) :=
  ⟨by decide, by decide, by decide,
    cursor_monotone (state_after demo_session)
      (reachable_state_after demo_session demo_session_defined)⟩

/-! ## Publishing -/

/-- C7. Capacity ceiling: in every reachable state `total_messages` is at most
`MAX_STORED_MSGS`, and when it equals `MAX_STORED_MSGS` a publish whose two
fields fit their buffers returns with the log and every session unchanged. -/
theorem capacity_ceiling (s : State) (hs : Reachable s) :
    s.total_messages ≤ MAX_STORED_MSGS ∧
    (s.total_messages = MAX_STORED_MSGS → ∀ body raw_msg raw_id,
      get_param_value body "message".toList MAX_MSG_LEN = some raw_msg →
      get_param_value body "client_id".toList MAX_ID_LEN = some raw_id →
      handle_post s body = some s) := by
  refine ⟨(reachable_bounded s hs).1, ?_⟩
  intro hfull body raw_msg raw_id hm hi
  unfold handle_post
  rw [hm, hi]
  simp only
  rw [if_neg (by omega)]

theorem capacity_ceiling_witness :
    (state_after flood).total_messages = 500 ∧
    handle_post (state_after flood) "message=one+more&client_id=alice".toList =
      some (state_after flood) :=
  ⟨flood_total,
    (capacity_ceiling (state_after flood) (reachable_state_after flood flood_defined)).2
      flood_total "message=one+more&client_id=alice".toList "one+more".toList "alice".toList
      (by decide) (by decide)⟩

/-- C8 fails as stated: the body `message=%00` has a message field that
decodes to the empty text, and `handle_post` still appends an entry. -/
theorem empty_decoded_message_stored :
    get_param_value "message=%00".toList "message".toList MAX_MSG_LEN = some "%00".toList ∧
    url_decode "%00".toList = some [] ∧
    (handle_post init "message=%00".toList).map
      (fun s => (s.total_messages, s.message_store 0)) = some (1, ⟨[], []⟩) := by
  decide

/-- C8, amended. Empty raw message rejected: when the still-encoded value of
`message` that `get_param_value` extracts is empty, as it is for every body
without `message=`, `handle_post` returns with all globals unchanged. -/
theorem empty_raw_message_rejected (s : State) (body raw_id : List Char)
    (hi : get_param_value body "client_id".toList MAX_ID_LEN = some raw_id) :
    (strstr (cstr body) "message=".toList = none →
      get_param_value body "message".toList MAX_MSG_LEN = some []) ∧
    (get_param_value body "message".toList MAX_MSG_LEN = some [] →
      handle_post s body = some s) := by
  constructor
  · intro h
    exact get_param_value_absent body "message".toList MAX_MSG_LEN (by decide) h
  · intro hm
    unfold handle_post
    rw [hm, hi]
    simp

theorem empty_raw_message_rejected_witness :
    get_param_value "client_id=alice&message=".toList "message".toList MAX_MSG_LEN = some [] ∧
    strstr (cstr "client_id=alice".toList) "message=".toList = none ∧
    handle_post (state_after demo_session) "client_id=alice&message=".toList =
      some (state_after demo_session) ∧
    handle_post (state_after demo_session) "client_id=alice".toList =
      some (state_after demo_session) :=
  ⟨by decide, by decide,
    (empty_raw_message_rejected (state_after demo_session) "client_id=alice&message=".toList
      "alice".toList (by decide)).2 (by decide),
    (empty_raw_message_rejected (state_after demo_session) "client_id=alice".toList
      "alice".toList (by decide)).2
      ((empty_raw_message_rejected (state_after demo_session) "client_id=alice".toList
        "alice".toList (by decide)).1 (by decide))⟩

/-- C9. Successful publish appends: when the value of `message` decodes to a
non-empty text and `total_messages < MAX_STORED_MSGS`, `handle_post` writes
the decoded message and the decoded `client_id` value (empty when the body has
no `client_id=`) at index `total_messages`, adds one to `total_messages`, and
changes no other log entry and no client session. -/
theorem publish_appends (s : State) (body raw_msg raw_id m sid : List Char)
    (hm : get_param_value body "message".toList MAX_MSG_LEN = some raw_msg)
    (hi : get_param_value body "client_id".toList MAX_ID_LEN = some raw_id)
    (hdm : url_decode raw_msg = some m) (hne : m ≠ [])
    (hds : url_decode raw_id = some sid)
    (hlt : s.total_messages < MAX_STORED_MSGS) :
    ∃ s1, handle_post s body = some s1 ∧
      s1.total_messages = s.total_messages + 1 ∧
      s1.message_store s.total_messages = ⟨m, sid⟩ ∧
      (∀ j, j ≠ s.total_messages → s1.message_store j = s.message_store j) ∧
      s1.clients = s.clients ∧ s1.total_clients = s.total_clients ∧
      (strstr (cstr body) "client_id=".toList = none → sid = []) := by
  have hraw : 0 < raw_msg.length := by
    cases raw_msg with
    | nil =>
      rw [url_decode_nil] at hdm
      simp only [Option.some.injEq] at hdm
      exact absurd hdm.symm hne
    | cons c t => simp
  refine ⟨{ s with
      message_store := store s.message_store s.total_messages ⟨m, sid⟩
      total_messages := s.total_messages + 1 }, ?_, rfl, ?_, ?_, rfl, rfl, ?_⟩
  · unfold handle_post
    rw [hm, hi]
    simp only [hraw, hlt, and_self, if_true, hdm, hds]
  · simp [store]
  · intro j hj
    simp [store, hj]
  · intro habs
    have := get_param_value_absent body "client_id".toList MAX_ID_LEN (by decide) habs
    rw [this] at hi
    simp only [Option.some.injEq] at hi
    subst hi
    rw [url_decode_nil] at hds
    simpa using hds.symm

theorem publish_appends_witness :
    (state_after demo_session).total_messages = 2 ∧
    ∃ s1, handle_post (state_after demo_session) "message=a%2Bb+c".toList = some s1 ∧
      s1.total_messages = (state_after demo_session).total_messages + 1 ∧
      s1.message_store (state_after demo_session).total_messages = ⟨"a+b c".toList, []⟩ ∧
      (∀ j, j ≠ (state_after demo_session).total_messages →
        s1.message_store j = (state_after demo_session).message_store j) ∧
      s1.clients = (state_after demo_session).clients ∧
      s1.total_clients = (state_after demo_session).total_clients ∧
      (strstr (cstr "message=a%2Bb+c".toList) "client_id=".toList = none →
        ([] : List Char) = []) :=
  ⟨by decide,
    publish_appends (state_after demo_session) "message=a%2Bb+c".toList "a%2Bb+c".toList []
      "a+b c".toList [] (by decide) (by decide) (by decide) (by decide) (by decide) (by decide)⟩

/-- C10. Scenario: from the initial state, alice publishes `Hello%20World`
(log length 1, stored text `Hello World`); bob polls and receives
`Hello World` and a newline; alice polls and receives the empty text while her
cursor becomes 1; bob polls again and receives the empty text. -/
theorem scenario_alice_bob :
    (run (init, []) [Request.POST "client_id=alice&message=Hello%20World".toList]).map
      (fun st => (st.1.total_messages, st.1.message_store 0)) =
      some (1, ⟨"Hello World".toList, "alice".toList⟩) ∧
    (run (init, [])
      [Request.POST "client_id=alice&message=Hello%20World".toList,
       Request.GET "/receive?client_id=bob".toList,
       Request.GET "/receive?client_id=alice".toList,
       Request.GET "/receive?client_id=bob".toList]).map
      (fun st => (st.2.map (fun e => (e.id, e.body)),
        find_client st.1 "alice".toList,
        (st.1.clients 1).client_id, (st.1.clients 1).last_seen_index)) =
      some ([("bob".toList, "Hello World\n".toList), ("alice".toList, []), ("bob".toList, [])],
        some 1, "alice".toList, 1) := by
  decide

/-! ## Delivery across request sequences -/

/-- No loss on defined runs: after a request sequence that is served with
defined behaviour throughout (so with every batch under `GET_BUFFER_SIZE`
bytes) and in which at most `MAX_CLIENTS` distinct identities have polled, the
bodies returned to an identity `X` that has polled, concatenated in order, are
`msg` followed by a newline for every log entry below the log length at the
latest poll of `X` whose `sender_id` is not `X`, in publish order. -/
theorem no_loss (reqs : List Request) (s : State) (hist : List PollEvent) (X : CStr)
    (hrun : run (init, []) reqs = some (s, hist))
    (hcap : (pollers hist).length ≤ MAX_CLIENTS)
    (hX : X ∈ hist.map PollEvent.id) :
    bodies_to hist X =
      ((List.range (last_total hist X)).filter
        (fun i => decide ((s.message_store i).sender_id ≠ X))).flatMap
        (fun i => (s.message_store i).msg ++ ['\n']) := by
  have hinv : NoLossInv (s, hist) :=
    run_induction NoLossInv noloss_inv_step reqs (init, []) (s, hist) noloss_inv_init hrun
  obtain ⟨-, -, hper⟩ := hinv.2 hcap
  obtain ⟨i, -, -, hbod⟩ := hper X hX
  rw [hbod]
  simp only [batch_of, unseen_from_others, Nat.sub_zero, List.range_eq_range']

theorem no_loss_witness :
    last_total (history_after demo_chat) "bob".toList = 3 ∧
    (polls_of (history_after demo_chat) "bob".toList).map PollEvent.body =
      ["Hello World\n".toList, "yo\n".toList] ∧
    bodies_to (history_after demo_chat) "bob".toList =
      ((List.range (last_total (history_after demo_chat) "bob".toList)).filter
        (fun i => decide (((state_after demo_chat).message_store i).sender_id ≠
          "bob".toList))).flatMap
        (fun i => ((state_after demo_chat).message_store i).msg ++ ['\n']) :=
  ⟨by decide, by decide,
    no_loss demo_chat (state_after demo_chat) (history_after demo_chat) "bob".toList
      (run_state_history demo_chat demo_chat_defined) (by decide) (by decide)⟩

/-- C6. No duplication: after any request sequence served from the initial
state, full registry or not, the log indices delivered to an identity over
all its polls are pairwise distinct, so no entry is delivered to it twice;
and the body of each of its polls is the text of exactly the entries at the
indices delivered by that poll. -/
theorem no_duplication (reqs : List Request) (s : State) (hist : List PollEvent) (X : CStr)
    (hrun : run (init, []) reqs = some (s, hist)) :
    (delivered_to hist X).Nodup ∧
      ∀ e, e ∈ polls_of hist X → e.body = batch_of s e.delivered := by
  have hinv : NoDupInv (s, hist) :=
    run_induction NoDupInv nodup_inv_step reqs (init, []) (s, hist) nodup_inv_init hrun
  have hbod : BodiesInv (s, hist) :=
    run_induction BodiesInv bodies_inv_step reqs (init, []) (s, hist) bodies_inv_init hrun
  refine ⟨(hinv.2 X).1, ?_⟩
  intro e he
  exact (hbod e (List.mem_filter.mp he).1).1

set_option maxRecDepth 100000 in
theorem no_duplication_witness :
    (state_after overflow_chat).total_clients = MAX_CLIENTS ∧
    find_client (state_after overflow_chat) "zed".toList = none ∧
    (polls_of (history_after overflow_chat) "zed".toList).map PollEvent.delivered =
      [[0, 1], []] ∧
    (polls_of (history_after overflow_chat) "zed".toList).map PollEvent.body =
      ["m0\nm1\n".toList, []] ∧
    (delivered_to (history_after overflow_chat) "zed".toList).Nodup ∧
    ∀ e, e ∈ polls_of (history_after overflow_chat) "zed".toList →
      e.body = batch_of (state_after overflow_chat) e.delivered :=
  ⟨by decide, by decide, by decide, by decide,
    no_duplication overflow_chat (state_after overflow_chat) (history_after overflow_chat)
      "zed".toList (run_state_history overflow_chat overflow_chat_defined)⟩

/-! ## Repeated polls -/

/-- A publish that passes the guard of `handle_post`. -/
theorem handle_post_stores {s : State} {body raw_msg raw_id m sid : List Char}
    (hm : get_param_value body "message".toList MAX_MSG_LEN = some raw_msg)
    (hi : get_param_value body "client_id".toList MAX_ID_LEN = some raw_id)
    (hdm : url_decode raw_msg = some m) (hne : m ≠ [])
    (hds : url_decode raw_id = some sid)
    (hlt : s.total_messages < MAX_STORED_MSGS) :
    handle_post s body = some { s with
      message_store := store s.message_store s.total_messages ⟨m, sid⟩
      total_messages := s.total_messages + 1 } := by
  have hraw : 0 < raw_msg.length := by
    cases raw_msg with
    | nil =>
      rw [url_decode_nil] at hdm
      simp only [Option.some.injEq] at hdm
      exact absurd hdm.symm hne
    | cons c t => simp
  unfold handle_post
  rw [hm, hi]
  simp only [hraw, hlt, and_self, if_true, hdm, hds]

/-- A poll is defined as soon as its identity is and the batch fits `buffer`. -/
theorem handle_get_defined {s : State} {url : List Char} {id : CStr}
    (hid : clean_id url = some id)
    (hfit : (collect (get_client_index s id).2 id
      ((get_client_index s id).2.clients (get_client_index s id).1).last_seen_index).1.length
        < GET_BUFFER_SIZE) :
    ∃ r, handle_get s url = some r := by
  unfold handle_get
  rw [hid]
  simp only
  rw [if_pos hfit]
  exact ⟨_, rfl⟩

/-- After a poll of `id`, a further poll of `id` with no publish in between is
defined, delivers nothing, and leaves the log as it is. -/
theorem repeat_poll_empty {s : State} {url1 url2 : List Char} {id : CStr} {r1 : GetResult}
    (hb : Bounded s) (hid1 : clean_id url1 = some id) (hid2 : clean_id url2 = some id)
    (hr1 : handle_get s url1 = some r1) :
    ∃ r2, handle_get r1.state url2 = some r2 ∧ r2.body = [] ∧ r2.delivered = [] ∧
      r2.state.message_store = s.message_store ∧ r2.state.total_messages = s.total_messages := by
  obtain ⟨c, -, -, hfull, hcur, -, -⟩ := poll_self hb hid1 hr1
  obtain ⟨hms1, htm1, -, -⟩ := poll_cases hid1 hr1
  have hc := clean_id_cstr hid1
  have hstart : ((get_client_index r1.state id).2.clients
      (get_client_index r1.state id).1).last_seen_index = r1.state.total_messages ∧
      (get_client_index r1.state id).2.total_messages = r1.state.total_messages := by
    rcases get_client_index_cases r1.state id with ⟨i, hf, h⟩ | ⟨hf, hlt, h⟩ | ⟨hf, hge, h⟩
    · rw [hc] at hf
      rw [h]
      simp only
      rw [slot_of_some hf] at hcur
      exact ⟨by rw [hcur, htm1], trivial⟩
    · rw [hc] at hf
      rcases hfull with h1 | h1
      · simp [hf] at h1
      · omega
    · rw [hc] at hf
      rw [h]
      simp only
      rw [slot_of_none hf] at hcur
      exact ⟨by rw [hcur, htm1], trivial⟩
  have hcol : collect (get_client_index r1.state id).2 id
      ((get_client_index r1.state id).2.clients (get_client_index r1.state id).1).last_seen_index
        = ([], false, []) := by
    rw [hstart.1]
    simp [collect, hstart.2]
  obtain ⟨r2, hr2⟩ := handle_get_defined (s := r1.state) hid2 (by rw [hcol]; decide)
  obtain ⟨hd2, hb2, -, hms2, htm2, -⟩ := handle_get_some hid2 hr2
  have hd2' : r2.delivered = [] := by
    rw [hd2, hstart.1]
    simp [unseen_from_others]
  refine ⟨r2, hr2, ?_, hd2', by rw [hms2, hms1], by rw [htm2, htm1]⟩
  rw [hb2, hd2']
  rfl

theorem handle_post_effect {s : State} {body raw_msg raw_id m sid : List Char}
    (hm : get_param_value body "message".toList MAX_MSG_LEN = some raw_msg)
    (hi : get_param_value body "client_id".toList MAX_ID_LEN = some raw_id)
    (hdm : url_decode raw_msg = some m) (hne : m ≠ [])
    (hds : url_decode raw_id = some sid)
    (hlt : s.total_messages < MAX_STORED_MSGS) :
    ∃ s1, handle_post s body = some s1 ∧
      s1.total_messages = s.total_messages + 1 ∧
      s1.message_store s.total_messages = ⟨m, sid⟩ ∧
      (∀ j, j ≠ s.total_messages → s1.message_store j = s.message_store j) ∧
      s1.clients = s.clients ∧ s1.total_clients = s.total_clients := by
  refine ⟨_, handle_post_stores hm hi hdm hne hds hlt, rfl, ?_, ?_, rfl, rfl⟩
  · simp [store]
  · intro j hj
    simp [store, hj]

/-- C12. Idempotent empty poll: in every reachable state, when an identity
polls and then polls again with no publish in between, the second poll is
answered with the empty text, and after each of the two polls `message_store`
and `total_messages` are what they were before the first. -/
theorem idempotent_empty_poll (s : State) (url1 url2 : List Char) (id : CStr) (r1 : GetResult)
    (hs : Reachable s) (hid1 : clean_id url1 = some id) (hid2 : clean_id url2 = some id)
    (hr1 : handle_get s url1 = some r1) :
    r1.state.message_store = s.message_store ∧ r1.state.total_messages = s.total_messages ∧
    ∃ r2, handle_get r1.state url2 = some r2 ∧ r2.body = [] ∧
      r2.state.message_store = s.message_store ∧ r2.state.total_messages = s.total_messages := by
  obtain ⟨hms1, htm1, -, -⟩ := poll_cases hid1 hr1
  obtain ⟨r2, hr2, hb2, -, hms2, htm2⟩ :=
    repeat_poll_empty (reachable_bounded s hs) hid1 hid2 hr1
  exact ⟨hms1, htm1, r2, hr2, hb2, hms2, htm2⟩

theorem idempotent_empty_poll_witness :
    ∃ r1, handle_get (state_after demo_requests) "/receive?client_id=carol".toList = some r1 ∧
      r1.body = "Hello World\nhi there\n".toList ∧
      r1.state.message_store = (state_after demo_requests).message_store ∧
      r1.state.total_messages = (state_after demo_requests).total_messages ∧
      ∃ r2, handle_get r1.state "/poll?client_id=carol".toList = some r2 ∧ r2.body = [] ∧
        r2.state.message_store = (state_after demo_requests).message_store ∧
        r2.state.total_messages = (state_after demo_requests).total_messages :=
  ⟨_, (Option.some_get demo_carol_poll_defined).symm, by decide,
    idempotent_empty_poll (state_after demo_requests) "/receive?client_id=carol".toList
      "/poll?client_id=carol".toList "carol".toList _
      (reachable_state_after demo_requests (by decide)) (by decide) (by decide)
      (Option.some_get demo_carol_poll_defined).symm⟩

/-- C11. Two publishes, one new poller: from the initial state, after a
publish of the non-empty text `m1` by `A` and one of the non-empty text `m2`
by `B`, the first poll of an identity `C` other than `A` and `B` returns `m1`,
a newline, `m2`, a newline, and a second poll of `C` right after returns the
empty text. -/
theorem two_publishes_one_poller
    (body1 body2 url raw1 rawA m1 A raw2 rawB m2 B C : List Char)
    (h1m : get_param_value body1 "message".toList MAX_MSG_LEN = some raw1)
    (h1i : get_param_value body1 "client_id".toList MAX_ID_LEN = some rawA)
    (h1d : url_decode raw1 = some m1) (h1n : m1 ≠ []) (h1s : url_decode rawA = some A)
    (h2m : get_param_value body2 "message".toList MAX_MSG_LEN = some raw2)
    (h2i : get_param_value body2 "client_id".toList MAX_ID_LEN = some rawB)
    (h2d : url_decode raw2 = some m2) (h2n : m2 ≠ []) (h2s : url_decode rawB = some B)
    (hC : clean_id url = some C) (hCA : C ≠ A) (hCB : C ≠ B) :
    ∃ st, run (init, [])
        [Request.POST body1, Request.POST body2, Request.GET url, Request.GET url] = some st ∧
      st.1.total_messages = 2 ∧
      st.2.map PollEvent.body = [m1 ++ ['\n'] ++ (m2 ++ ['\n']), []] := by
  obtain ⟨s1, hp1, ht1, he1, -, hc1, hn1⟩ :=
    handle_post_effect (s := init) h1m h1i h1d h1n h1s (by decide)
  obtain ⟨s2, hp2, ht2, he2, ho2, hc2, hn2⟩ :=
    handle_post_effect (s := s1) h2m h2i h2d h2n h2s (by rw [ht1]; decide)
  have hb2 : Bounded s2 := bounded_post (bounded_post bounded_init hp1) hp2
  have htot : s2.total_messages = 2 := by rw [ht2, ht1]; rfl
  have hnc : s2.total_clients = 0 := by rw [hn2, hn1]; rfl
  have hm0 : s2.message_store 0 = ⟨m1, A⟩ := by
    rw [ho2 0 (by rw [ht1]; decide), ← he1]; rfl
  have hm1 : s2.message_store 1 = ⟨m2, B⟩ := by
    rw [← he2, ht1]; rfl
  have hun : unseen_from_others s2 C 0 2 = [0, 1] := by
    have e0 : (s2.message_store 0).sender_id ≠ C := by rw [hm0]; exact fun h => hCA h.symm
    have e1 : (s2.message_store 1).sender_id ≠ C := by rw [hm1]; exact fun h => hCB h.symm
    simp [unseen_from_others, List.range', List.filter, e0, e1]
  have hbat : batch_of s2 [0, 1] = m1 ++ ['\n'] ++ (m2 ++ ['\n']) := by
    simp [batch_of, hm0, hm1]
  have hfind : find_client s2 C = none := by
    simp [find_client, hnc]
  have hgci : get_client_index s2 C = (0, { s2 with
      clients := store s2.clients 0 ⟨(cstr C).take MAX_ID_LEN, 0⟩
      total_clients := 1 }) := by
    simp [get_client_index, clean_id_cstr hC, hfind, hnc, MAX_CLIENTS]
  have hl1 := url_decode_length h1d
  have hl2 := url_decode_length h2d
  have hr1 := get_param_value_length (by decide) h1m
  have hr2 := get_param_value_length (by decide) h2m
  have hfit : (batch_of s2 [0, 1]).length < GET_BUFFER_SIZE := by
    rw [hbat]
    simp only [List.length_append, List.length_singleton, MAX_MSG_LEN, GET_BUFFER_SIZE] at *
    omega
  have hcur : ((get_client_index s2 C).2.clients (get_client_index s2 C).1).last_seen_index
      = 0 := by
    rw [hgci]; simp [store]
  have hlog := get_client_index_log s2 C
  have key : batch_of (get_client_index s2 C).2
      (unseen_from_others (get_client_index s2 C).2 C 0
        (get_client_index s2 C).2.total_messages) =
      batch_of s2 (unseen_from_others s2 C 0 s2.total_messages) := by
    simp only [batch_of, unseen_from_others, hlog.1, hlog.2]
  obtain ⟨r1, hg1⟩ := handle_get_defined (s := s2) hC (by
    rw [collect_eq, hcur]
    simp only
    rw [key, htot, hun]
    exact hfit)
  obtain ⟨-, -, hbody1, hcases⟩ := poll_cases hC hg1
  have hd1 : r1.delivered = [0, 1] := by
    rcases hcases with ⟨i, hf, -⟩ | ⟨-, -, -, -, hd⟩ | ⟨-, hge, -⟩
    · rw [hfind] at hf; cases hf
    · rw [hd, htot, hun]
    · rw [hnc] at hge; simp [MAX_CLIENTS] at hge
  obtain ⟨r2, hg2, hbody2, -, -, htm2⟩ := repeat_poll_empty hb2 hC hC hg1
  refine ⟨(r2.state, [⟨C, s2.total_messages, r1.body, r1.delivered⟩,
    ⟨C, r1.state.total_messages, r2.body, r2.delivered⟩]), ?_, ?_, ?_⟩
  · simp only [run, step, hp1, hp2, Option.map_some', hC, hg1, hg2, List.nil_append,
      List.cons_append]
  · simp only [htm2, htot]
  · simp only [List.map_cons, List.map_nil, hbody1, hd1, hbat, hbody2]

theorem two_publishes_one_poller_witness :
    ∃ st, run (init, [])
        [Request.POST "message=Hello%20World&client_id=alice".toList,
         Request.POST "client_id=bob&message=hi+there".toList,
         Request.GET "/receive?client_id=carol".toList,
         Request.GET "/receive?client_id=carol".toList] = some st ∧
      st.1.total_messages = 2 ∧
      st.2.map PollEvent.body = ["Hello World\nhi there\n".toList, []] :=
  two_publishes_one_poller "message=Hello%20World&client_id=alice".toList
    "client_id=bob&message=hi+there".toList "/receive?client_id=carol".toList
    "Hello%20World".toList "alice".toList "Hello World".toList "alice".toList
    "hi+there".toList "bob".toList "hi there".toList "bob".toList "carol".toList
    (by decide) (by decide) (by decide) (by decide) (by decide)
    (by decide) (by decide) (by decide) (by decide) (by decide)
    (by decide) (by decide) (by decide)

/-! ## Parameter decoding -/

/-- C13, at the failing input. A URL without a query string polls as
`unknown`, but a URL whose query string has no `client_id=` polls as the
empty identity: `get_param_value` leaves `raw_id` empty and no default is
applied, so the session created is the one for the empty text. -/
theorem query_without_client_id_polls_as_empty :
    clean_id "/receive".toList = some "unknown".toList ∧
    clean_id "/receive?x=1".toList = some [] ∧
    (handle_get init "/receive?x=1".toList).map
      (fun r => (r.state.total_clients, (r.state.clients 0).client_id,
        find_client r.state "unknown".toList)) = some (1, [], none) := by
  decide

/-- C16, at failing inputs. After a `'%'` with fewer than two bytes before the
terminator, `url_decode` does not keep the `'%'`: it moves `p` past the
terminator and goes on reading, which the model records as `none`. -/
theorem incomplete_escape_leaves_string :
    url_decode "%".toList = none ∧ url_decode "50%".toList = none ∧
    url_decode "a%4".toList = none ∧
    url_decode_loop "a%4".toList ≠ some "a%4".toList ∧
    (handle_post init "message=50%".toList).isNone = true := by
  decide

theorem strstr_none_of_not_infix (needle : List Char) :
    ∀ hay : List Char, ¬ needle <:+: hay → strstr hay needle = none := by
  intro hay
  induction hay with
  | nil =>
    intro h
    have hp : ¬ needle <+: [] := fun hp => h hp.isInfix
    simp only [strstr]
    rw [if_neg (by rw [List.isPrefixOf_iff_prefix]; exact hp)]
  | cons c t ih =>
    intro h
    have hp : ¬ needle <+: c :: t := fun hp => h hp.isInfix
    have ht : ¬ needle <:+: t := fun ht => h (List.infix_cons ht)
    simp only [strstr]
    rw [if_neg (by rw [List.isPrefixOf_iff_prefix]; exact hp)]
    exact ih ht

theorem strstr_prefix (needle suf : List Char) (hp : needle <+: suf) :
    strstr suf needle = some suf := by
  cases suf with
  | nil =>
    simp only [strstr]
    rw [if_pos (by rw [List.isPrefixOf_iff_prefix]; exact hp)]
  | cons c t =>
    simp only [strstr]
    rw [if_pos (by rw [List.isPrefixOf_iff_prefix]; exact hp)]

theorem strstr_first (needle suf : List Char) (hp : needle <+: suf) :
    ∀ pre : List Char, (∀ k, k < pre.length → ¬ needle <+: (pre ++ suf).drop k) →
      strstr (pre ++ suf) needle = some suf := by
  intro pre
  induction pre with
  | nil => intro _; exact strstr_prefix needle suf hp
  | cons c t ih =>
    intro hmin
    have h0 : ¬ needle <+: c :: (t ++ suf) := by
      have := hmin 0 (by simp)
      simpa using this
    simp only [List.cons_append, strstr]
    rw [if_neg (by rw [List.isPrefixOf_iff_prefix]; exact h0)]
    apply ih
    intro k hk
    have := hmin (k + 1) (by simp only [List.length_cons]; omega)
    simpa using this

theorem strchr_value (c : Char) : ∀ l : List Char,
    (match strchr l c with
      | some e => l.take (l.length - e.length)
      | none => l) = l.takeWhile (fun d => decide (d ≠ c)) ∧
    ∀ e, strchr l c = some e → e.length ≤ l.length := by
  intro l
  induction l with
  | nil => simp [strchr]
  | cons d t ih =>
    by_cases hd : d = c
    · simp [strchr, hd]
    · obtain ⟨ih1, ih2⟩ := ih
      simp only [strchr, if_neg hd]
      constructor
      · rw [List.takeWhile_cons, if_pos (by simpa using hd)]
        cases hs : strchr t c with
        | none => rw [hs] at ih1; simp only at ih1 ⊢; rw [← ih1]
        | some e =>
          rw [hs] at ih1
          have hle := ih2 e hs
          simp only at ih1 ⊢
          rw [← ih1, List.length_cons, show t.length + 1 - e.length = (t.length - e.length) + 1 by omega,
            List.take_succ_cons]
      · intro e he
        have := ih2 e he
        simp only [List.length_cons]; omega

/-- Value found by `get_param_value` when the first occurrence of `key=` in
`data` is known. -/
theorem get_param_value_at (data key : List Char) (cap : Nat) (pre rest : List Char)
    (hd : cstr data = data) (hk : cstr key = key)
    (hq : (key ++ ['=']).length < QUERY_KEY_SIZE)
    (hdata : data = pre ++ (key ++ ['='] ++ rest))
    (hmin : ∀ k, k < pre.length → ¬ (key ++ ['=']) <+: data.drop k) :
    get_param_value data key cap =
      if (rest.takeWhile (fun d => decide (d ≠ '&'))).length < cap
      then some (rest.takeWhile (fun d => decide (d ≠ '&'))) else none := by
  have hs : strstr data (key ++ ['=']) = some (key ++ ['='] ++ rest) := by
    rw [hdata]
    apply strstr_first _ _ (List.prefix_append _ _)
    intro k hk'
    rw [← hdata]
    exact hmin k hk'
  unfold get_param_value
  simp only [hd, hk, hs]
  rw [if_neg (by omega), List.drop_left' rfl]
  have hv := (strchr_value '&' rest).1
  cases hsc : strchr rest '&' with
  | none => rw [hsc] at hv; simp only at hv ⊢; rw [← hv]
  | some e => rw [hsc] at hv; simp only at hv ⊢; rw [← hv]

theorem cstr_eq_self {l : List Char} (h : '\x00' ∉ l) : cstr l = l := by
  unfold cstr
  rw [List.takeWhile_eq_self_iff]
  intro c hc
  simp only [ne_eq, decide_not, Bool.not_eq_true', decide_eq_false_iff_not]
  rintro rfl
  exact h hc

theorem not_prefix_within {needle pre : List Char} {a : Char} {t : List Char}
    (hn : needle = a :: t) (ha : a ∉ pre) (X : List Char) :
    ∀ k, k < pre.length → ¬ needle <+: (pre ++ X).drop k := by
  intro k hk hp
  have hk2 : k < (pre ++ X).length := by rw [List.length_append]; omega
  rw [List.drop_eq_getElem_cons hk2, List.getElem_append_left hk, hn] at hp
  obtain ⟨u, hu⟩ := hp
  simp only [List.cons_append, List.cons.injEq] at hu
  exact ha (hu.1 ▸ List.getElem_mem hk)

/-- C14 fails as stated: a pair whose key only ends with the requested key is
matched, and so is `key=` inside the value of an earlier pair. -/
theorem substring_key_matches :
    get_param_value "xmessage=hi".toList "message".toList MAX_MSG_LEN = some "hi".toList ∧
    get_param_value "message=client_id=5&client_id=bob".toList "client_id".toList MAX_ID_LEN =
      some "5".toList := by
  decide

/-- C14, amended. First-occurrence extraction: `get_param_value` returns the
text that follows the first occurrence of `key=` anywhere in `data`, up to the
next `'&'` or the end (undefined when that text and its terminator exceed the
destination), and the empty text when `key=` does not occur in `data`. -/
theorem get_param_value_first_occurrence (data key : List Char) (cap : Nat)
    (hd : cstr data = data) (hk : cstr key = key)
    (hq : (key ++ ['=']).length < QUERY_KEY_SIZE) :
    (¬ (key ++ ['=']) <:+: data → get_param_value data key cap = some []) ∧
    (∀ pre rest, data = pre ++ (key ++ ['='] ++ rest) →
      (∀ k, k < pre.length → ¬ (key ++ ['=']) <+: data.drop k) →
      get_param_value data key cap =
        if (rest.takeWhile (fun d => decide (d ≠ '&'))).length < cap
        then some (rest.takeWhile (fun d => decide (d ≠ '&'))) else none) := by
  constructor
  · intro h
    apply get_param_value_absent data key cap (by rw [hk]; exact hq)
    rw [hd, hk]
    exact strstr_none_of_not_infix _ _ h
  · intro pre rest hdata hmin
    exact get_param_value_at data key cap pre rest hd hk hq hdata hmin

theorem get_param_value_first_occurrence_witness :
    get_param_value "xmessage=hi&message=yo&client_id=bob".toList "message".toList MAX_MSG_LEN =
      (if (("hi&message=yo&client_id=bob".toList).takeWhile (fun d => decide (d ≠ '&'))).length
          < MAX_MSG_LEN
        then some (("hi&message=yo&client_id=bob".toList).takeWhile (fun d => decide (d ≠ '&')))
        else none) ∧
    get_param_value "xmessage=hi&message=yo&client_id=bob".toList "message".toList MAX_MSG_LEN =
      some "hi".toList ∧
    get_param_value "a=1&b=2".toList "message".toList MAX_MSG_LEN = some [] :=
  ⟨(get_param_value_first_occurrence "xmessage=hi&message=yo&client_id=bob".toList
      "message".toList MAX_MSG_LEN (by decide) (by decide) (by decide)).2
      "x".toList "hi&message=yo&client_id=bob".toList (by decide) (by decide),
    by decide,
    (get_param_value_first_occurrence "a=1&b=2".toList "message".toList MAX_MSG_LEN
      (by decide) (by decide) (by decide)).1 (by decide)⟩

theorem decode_spec_cons (c : Char) (rest : List Char) :
    decode_spec (c :: rest) =
      if c = '%' then
        match rest with
        | c1 :: c2 :: rest2 =>
          Char.ofNat (16 * (hexDigit c1).getD 0 + (hexDigit c2).getD 0) :: decode_spec rest2
        | _ => c :: rest
      else if c = '+' then ' ' :: decode_spec rest
      else c :: decode_spec rest := by
  match rest with
  | [] => rfl
  | [_] => rfl
  | _ :: _ :: _ => rfl

theorem hexDigit_lt {c : Char} {d : Nat} (h : hexDigit c = some d) : d < 16 := by
  unfold hexDigit at h
  split at h
  · rename_i hc
    simp only [Option.some.injEq] at h
    have h2 : c.toNat ≤ '9'.toNat := hc.2
    have : '9'.toNat = 57 := by decide
    have : '0'.toNat = 48 := by decide
    omega
  · split at h
    · rename_i hc
      simp only [Option.some.injEq] at h
      have h2 : c.toNat ≤ 'f'.toNat := hc.2
      have h1 : 'a'.toNat ≤ c.toNat := hc.1
      have : 'f'.toNat = 102 := by decide
      have : 'a'.toNat = 97 := by decide
      omega
    · split at h
      · rename_i hc
        simp only [Option.some.injEq] at h
        have h2 : c.toNat ≤ 'F'.toNat := hc.2
        have h1 : 'A'.toNat ≤ c.toNat := hc.1
        have : 'F'.toNat = 70 := by decide
        have : 'A'.toNat = 65 := by decide
        omega
      · cases h

theorem hexDigit_ne {c x : Char} {d : Nat} (h : hexDigit c = some d) (hx : hexDigit x = none) :
    c ≠ x := by
  rintro rfl
  rw [hx] at h
  cases h

theorem strtoul16_two_digits {c1 c2 : Char} {d1 d2 : Nat}
    (h1 : hexDigit c1 = some d1) (h2 : hexDigit c2 = some d2) :
    strtoul16 [c1, c2] = 16 * d1 + d2 := by
  have n1 : c1 ≠ '\x00' := hexDigit_ne h1 (by decide)
  have n2 : c2 ≠ '\x00' := hexDigit_ne h2 (by decide)
  have a1 : c1 ≠ ' ' := hexDigit_ne h1 (by decide)
  have a2 : c1 ≠ '\t' := hexDigit_ne h1 (by decide)
  have a3 : c1 ≠ '\n' := hexDigit_ne h1 (by decide)
  have a4 : c1 ≠ '\x0b' := hexDigit_ne h1 (by decide)
  have a5 : c1 ≠ '\x0c' := hexDigit_ne h1 (by decide)
  have a6 : c1 ≠ '\r' := hexDigit_ne h1 (by decide)
  have a7 : c1 ≠ '-' := hexDigit_ne h1 (by decide)
  have a8 : c1 ≠ '+' := hexDigit_ne h1 (by decide)
  simp [strtoul16, cstr, isspace, strtoul_digits, List.takeWhile, List.dropWhile,
    n1, n2, a1, a2, a3, a4, a5, a6, a7, a8, h1, h2]
  omega

end WebChat
namespace WebChat

theorem escapes_complete_tail {c : Char} {p : List Char} (h : escapes_complete (c :: p)) :
    escapes_complete p := by
  intro i hi hp
  have := h (i + 1) (by simp only [List.length_cons]; omega) (by simpa using hp)
  simpa using this

theorem escapes_complete_head {p : List Char} (h : escapes_complete ('%' :: p)) :
    ∃ c1 c2 rest d1 d2, p = c1 :: c2 :: rest ∧ hexDigit c1 = some d1 ∧ hexDigit c2 = some d2 := by
  have h0 := h 0 (by simp) (by simp)
  match p, h0 with
  | [], h0 => simp at h0
  | [_], h0 => simp at h0
  | c1 :: c2 :: rest, h0 =>
    simp only [List.getElem?_cons_succ, List.getElem?_cons_zero, Option.some_bind, zero_add] at h0
    obtain ⟨d1, hd1⟩ := Option.isSome_iff_exists.mp h0.1
    obtain ⟨d2, hd2⟩ := Option.isSome_iff_exists.mp h0.2
    exact ⟨c1, c2, rest, d1, d2, rfl, hd1, hd2⟩

theorem url_decode_loop_complete : ∀ (n : Nat) (l : List Char), l.length ≤ n →
    escapes_complete l → url_decode_loop l = some (decode_spec l) := by
  intro n
  induction n with
  | zero =>
    intro l hl _
    have : l = [] := List.length_eq_zero.mp (Nat.le_zero.mp hl)
    subst this
    rfl
  | succ n ih =>
    intro l hl hwf
    cases l with
    | nil => rfl
    | cons c p =>
      simp only [List.length_cons] at hl
      have hp := escapes_complete_tail hwf
      rw [url_decode_loop_cons, decode_spec_cons]
      by_cases hc : c = '%'
      · subst hc
        obtain ⟨c1, c2, rest, d1, d2, rfl, hd1, hd2⟩ := escapes_complete_head hwf
        have hrest : escapes_complete rest := escapes_complete_tail (escapes_complete_tail hp)
        simp only [if_true]
        rw [ih rest (by simp only [List.length_cons] at hl; omega) hrest]
        have hlt1 := hexDigit_lt hd1
        have hlt2 := hexDigit_lt hd2
        simp only [Option.map_some', toChar, strtoul16_two_digits hd1 hd2, hd1, hd2,
          Option.getD_some]
        rw [Nat.mod_eq_of_lt (by omega)]
      · simp only [if_neg hc]
        rw [ih p (by omega) hp]
        by_cases hplus : c = '+' <;> simp [hplus]

/-- C15. Decoding well-formed input: when every `'%'` of the input is followed
by two hexadecimal digits of either case, the bytes `url_decode` stores through
`dest` are the input with each `%XX` replaced by the byte of value `XX`, each
`'+'` by a space, and every other byte kept, in order.  The string left in
`dest` is that byte sequence read up to its first NUL, hence all of it when no
escape is `%00`. -/
theorem url_decode_well_formed (src : List Char) (hwf : escapes_complete (cstr src)) :
    url_decode_bytes src = some (decode_spec (cstr src)) ∧
    url_decode src = some (cstr (decode_spec (cstr src))) ∧
    ('\x00' ∉ decode_spec (cstr src) → url_decode src = some (decode_spec (cstr src))) := by
  have h := url_decode_loop_complete _ (cstr src) (Nat.le_refl _) hwf
  have h2 : url_decode src = some (cstr (decode_spec (cstr src))) := by
    simp only [url_decode, url_decode_bytes, h, Option.map_some']
  refine ⟨h, h2, ?_⟩
  intro hnul
  rw [h2, cstr_eq_self hnul]

theorem url_decode_well_formed_witness :
    decode_spec "a%2Bb+c%3d%7E".toList = "a+b c=~".toList ∧
    url_decode_bytes "a%2Bb+c%3d%7E".toList = some (decode_spec (cstr "a%2Bb+c%3d%7E".toList)) ∧
    url_decode "a%2Bb+c%3d%7E".toList =
      some (cstr (decode_spec (cstr "a%2Bb+c%3d%7E".toList))) ∧
    ('\x00' ∉ decode_spec (cstr "a%2Bb+c%3d%7E".toList) →
      url_decode "a%2Bb+c%3d%7E".toList = some (decode_spec (cstr "a%2Bb+c%3d%7E".toList))) :=
  ⟨by decide, url_decode_well_formed "a%2Bb+c%3d%7E".toList (by decide)⟩

/-! ## Client registry -/

theorem unique_sessions_init : UniqueSessions init := by
  intro i j hi
  simp [init] at hi

theorem unique_sessions_post {s s1 : State} {body : List Char} (hu : UniqueSessions s)
    (h : handle_post s body = some s1) : UniqueSessions s1 := by
  obtain ⟨hc, htc, -⟩ := handle_post_sessions h
  intro i j hi hj
  rw [hc]
  rw [htc] at hi hj
  exact hu i j hi hj

theorem unique_sessions_get {s : State} {url : List Char} {r : GetResult}
    (hu : UniqueSessions s) (h : handle_get s url = some r) : UniqueSessions r.state := by
  cases hid : clean_id url with
  | none => simp [handle_get, hid] at h
  | some id =>
    obtain ⟨-, -, -, hc⟩ := poll_cases hid h
    rcases hc with ⟨i0, hf, htc, hcl, -⟩ | ⟨hf, hlt, htc, hcl, -⟩ | ⟨hf, hge, htc, hcl, -⟩
    · have hid' : ∀ k, (r.state.clients k).client_id = (s.clients k).client_id := by
        intro k; rw [hcl]; simp only [store]
        by_cases hk : k = i0
        · rw [if_pos hk, hk]
        · rw [if_neg hk]
      intro i j hi hj
      rw [hid' i, hid' j]
      rw [htc] at hi hj
      exact hu i j hi hj
    · have hnew : (r.state.clients s.total_clients).client_id = id := by
        rw [hcl]; simp [store]
      have hold : ∀ k, k < s.total_clients →
          (r.state.clients k).client_id = (s.clients k).client_id := by
        intro k hk; rw [hcl]; simp only [store]; rw [if_neg (by omega)]
      have hne := find_client_none hf
      intro i j hi hj he
      rw [htc] at hi hj
      by_cases hi2 : i = s.total_clients
      · by_cases hj2 : j = s.total_clients
        · omega
        · rw [hi2, hnew, hold j (by omega)] at he
          exact absurd he.symm (hne j (by omega))
      · by_cases hj2 : j = s.total_clients
        · rw [hj2, hnew, hold i (by omega)] at he
          exact absurd he (hne i (by omega))
        · rw [hold i (by omega), hold j (by omega)] at he
          exact hu i j (by omega) (by omega) he
    · have hid' : ∀ k, (r.state.clients k).client_id = (s.clients k).client_id := by
        intro k; rw [hcl]; simp only [store]
        by_cases hk : k = 0
        · rw [if_pos hk, hk]
        · rw [if_neg hk]
      intro i j hi hj
      rw [hid' i, hid' j]
      rw [htc] at hi hj
      exact hu i j hi hj

set_option maxRecDepth 100000 in
theorem full_registry_chat_defined : (run (init, []) full_registry_chat).isSome := by decide

set_option maxRecDepth 100000 in
theorem zed_poll_full_defined :
    (handle_get (state_after full_registry_chat) "/r?client_id=zed".toList).isSome := by
  decide

/-- C17. Resolve or create: for an identity shorter than `MAX_ID_LEN`, when
some session holds it `get_client_index` returns the smallest index of such a
session and changes nothing; when none does and `total_clients < MAX_CLIENTS`
it writes a session with that identity and cursor `0` at index
`total_clients`, returns that index, adds one to `total_clients`, and leaves
every other slot and the log unchanged. -/
theorem resolve_or_create (s : State) (id : List Char)
    (hid : cstr id = id) (hlen : id.length < MAX_ID_LEN) :
    ((∃ i, i < s.total_clients ∧ (s.clients i).client_id = id) →
      ∃ i, get_client_index s id = (i, s) ∧ i < s.total_clients ∧
        (s.clients i).client_id = id ∧ ∀ j, j < i → (s.clients j).client_id ≠ id) ∧
    ((∀ i, i < s.total_clients → (s.clients i).client_id ≠ id) →
      s.total_clients < MAX_CLIENTS →
      ∃ t, get_client_index s id = (s.total_clients, t) ∧
        t.clients s.total_clients = ⟨id, 0⟩ ∧
        t.total_clients = s.total_clients + 1 ∧
        (∀ j, j ≠ s.total_clients → t.clients j = s.clients j) ∧
        t.message_store = s.message_store ∧ t.total_messages = s.total_messages) := by
  constructor
  · rintro ⟨i, hi, hx⟩
    rcases get_client_index_cases s id with ⟨k, hf, h⟩ | ⟨hf, -, -⟩ | ⟨hf, -, -⟩
    · rw [hid] at hf
      obtain ⟨h1, h2, h3⟩ := find_client_some hf
      exact ⟨k, h, h1, h2, h3⟩
    · rw [hid] at hf
      exact absurd hx (find_client_none hf i hi)
    · rw [hid] at hf
      exact absurd hx (find_client_none hf i hi)
  · intro hnone hlt
    rcases get_client_index_cases s id with ⟨k, hf, -⟩ | ⟨-, -, h⟩ | ⟨-, hge, -⟩
    · rw [hid] at hf
      obtain ⟨h1, h2, -⟩ := find_client_some hf
      exact absurd h2 (hnone k h1)
    · refine ⟨_, h, ?_, rfl, ?_, rfl, rfl⟩
      · simp only [store, if_true, hid]
        rw [List.take_of_length_le (by omega)]
      · intro j hj
        simp only [store]
        rw [if_neg hj]
    · omega

theorem resolve_or_create_witness :
    (state_after demo_chat).total_clients = 2 ∧
    ((∃ i, i < (state_after demo_chat).total_clients ∧
        ((state_after demo_chat).clients i).client_id = "alice".toList) →
      ∃ i, get_client_index (state_after demo_chat) "alice".toList =
          (i, state_after demo_chat) ∧ i < (state_after demo_chat).total_clients ∧
        ((state_after demo_chat).clients i).client_id = "alice".toList ∧
        ∀ j, j < i → ((state_after demo_chat).clients j).client_id ≠ "alice".toList) ∧
    (get_client_index (state_after demo_chat) "alice".toList).1 = 1 ∧
    ((∀ i, i < (state_after demo_chat).total_clients →
        ((state_after demo_chat).clients i).client_id ≠ "dave".toList) →
      (state_after demo_chat).total_clients < MAX_CLIENTS →
      ∃ t, get_client_index (state_after demo_chat) "dave".toList =
          ((state_after demo_chat).total_clients, t) ∧
        t.clients (state_after demo_chat).total_clients = ⟨"dave".toList, 0⟩ ∧
        t.total_clients = (state_after demo_chat).total_clients + 1 ∧
        (∀ j, j ≠ (state_after demo_chat).total_clients →
          t.clients j = (state_after demo_chat).clients j) ∧
        t.message_store = (state_after demo_chat).message_store ∧
        t.total_messages = (state_after demo_chat).total_messages) ∧
    (∀ i, i < (state_after demo_chat).total_clients →
        ((state_after demo_chat).clients i).client_id ≠ "dave".toList) :=
  ⟨by decide,
    (resolve_or_create (state_after demo_chat) "alice".toList (by decide) (by decide)).1,
    by decide,
    (resolve_or_create (state_after demo_chat) "dave".toList (by decide) (by decide)).2,
    by decide⟩

/-- C18. Registry-full fallback: `total_clients` never exceeds `MAX_CLIENTS`
in a reachable state; when it equals `MAX_CLIENTS` and no session holds `id`,
`get_client_index` returns `0` and changes nothing, and a poll of `id` reads
its start position from the cursor of session `0`, a session of another
identity, and overwrites that cursor with `total_messages`. -/
theorem registry_full_fallback (s : State) (id : List Char) (hs : Reachable s)
    (hid : cstr id = id) (hfull : s.total_clients = MAX_CLIENTS)
    (hnone : ∀ i, i < s.total_clients → (s.clients i).client_id ≠ id) :
    s.total_clients ≤ MAX_CLIENTS ∧
    get_client_index s id = (0, s) ∧
    (s.clients 0).client_id ≠ id ∧
    ∀ url r, clean_id url = some id → handle_get s url = some r →
      r.delivered = unseen_from_others s id (s.clients 0).last_seen_index s.total_messages ∧
      r.state.clients = store s.clients 0
        { s.clients 0 with last_seen_index := s.total_messages } ∧
      r.state.total_clients = MAX_CLIENTS := by
  have h0 : 0 < s.total_clients := by rw [hfull]; decide
  refine ⟨(reachable_bounded s hs).2.1, ?_, hnone 0 h0, ?_⟩
  · rcases get_client_index_cases s id with ⟨k, hf, -⟩ | ⟨-, hlt, -⟩ | ⟨-, -, h⟩
    · rw [hid] at hf
      obtain ⟨h1, h2, -⟩ := find_client_some hf
      exact absurd h2 (hnone k h1)
    · omega
    · exact h
  · intro url r hu hr
    obtain ⟨-, -, -, hc⟩ := poll_cases hu hr
    rcases hc with ⟨k, hf, -⟩ | ⟨-, hlt, -⟩ | ⟨-, -, htc, hcl, hd⟩
    · obtain ⟨h1, h2, -⟩ := find_client_some hf
      exact absurd h2 (hnone k h1)
    · omega
    · exact ⟨hd, hcl, by rw [htc, hfull]⟩

set_option maxRecDepth 100000 in
theorem registry_full_fallback_witness :
    ((state_after full_registry_chat).clients 0).client_id = "A".toList ∧
    ((state_after full_registry_chat).clients 0).last_seen_index = 0 ∧
    (state_after full_registry_chat).total_messages = 2 ∧
    ∃ r, handle_get (state_after full_registry_chat) "/r?client_id=zed".toList = some r ∧
      r.body = "m0\nm1\n".toList ∧
      r.delivered = unseen_from_others (state_after full_registry_chat) "zed".toList
        ((state_after full_registry_chat).clients 0).last_seen_index
        (state_after full_registry_chat).total_messages ∧
      r.state.clients = store (state_after full_registry_chat).clients 0
        { (state_after full_registry_chat).clients 0 with
          last_seen_index := (state_after full_registry_chat).total_messages } ∧
      r.state.total_clients = MAX_CLIENTS :=
  ⟨by decide, by decide, by decide, _,
    (Option.some_get zed_poll_full_defined).symm, by decide,
    (registry_full_fallback (state_after full_registry_chat) "zed".toList
      (reachable_state_after full_registry_chat full_registry_chat_defined)
      (by decide) (by decide) (by decide)).2.2.2
      "/r?client_id=zed".toList _ (by decide) (Option.some_get zed_poll_full_defined).symm⟩

/-- C19. Session uniqueness: in every state reachable from the initial one,
where each call of `get_client_index` is made by a poll, no two sessions of
the registry have equal `client_id`. -/
theorem session_uniqueness (s : State) (hs : Reachable s) :
    ∀ i j, i < s.total_clients → j < s.total_clients →
      (s.clients i).client_id = (s.clients j).client_id → i = j :=
  state_invariant UniqueSessions unique_sessions_init
    (fun _ _ _ hu h => unique_sessions_post hu h)
    (fun _ _ _ hu h => unique_sessions_get hu h) s hs

set_option maxRecDepth 100000 in
theorem session_uniqueness_witness :
    (state_after overflow_chat).total_clients = 50 ∧
    ∀ i j, i < (state_after overflow_chat).total_clients →
      j < (state_after overflow_chat).total_clients →
      ((state_after overflow_chat).clients i).client_id =
        ((state_after overflow_chat).clients j).client_id → i = j :=
  ⟨by decide,
    session_uniqueness (state_after overflow_chat)
      (reachable_state_after overflow_chat overflow_chat_defined)⟩

/-! ## Batch size -/

theorem takeWhile_replicate_a (n : Nat) :
    (List.replicate n 'a').takeWhile (fun d => decide (d ≠ '&')) = List.replicate n 'a' := by
  rw [List.takeWhile_eq_self_iff]
  intro c hc
  rw [List.eq_of_mem_replicate hc]
  decide

theorem url_decode_replicate_a (n : Nat) :
    url_decode (List.replicate n 'a') = some (List.replicate n 'a') := by
  have hc : cstr (List.replicate n 'a') = List.replicate n 'a' := by
    apply cstr_eq_self
    intro h
    have := List.eq_of_mem_replicate h
    revert this
    decide
  have hl : url_decode_loop (List.replicate n 'a') = some (List.replicate n 'a') := by
    induction n with
    | zero => rfl
    | succ n ih =>
      have hc' : cstr (List.replicate n 'a') = List.replicate n 'a' := by
        apply cstr_eq_self
        intro h
        have := List.eq_of_mem_replicate h
        revert this
        decide
      rw [List.replicate_succ, url_decode_loop_cons, if_neg (by decide), if_neg (by decide)]
      rw [ih hc']
      rfl
  simp only [url_decode, url_decode_bytes, hc, hl, Option.map_some']

theorem long_body_cstr : cstr long_body = long_body := by
  apply cstr_eq_self
  unfold long_body
  rw [List.mem_append]
  rintro (h | h)
  · revert h; decide
  · have := List.eq_of_mem_replicate h
    revert this
    decide

theorem long_body_message :
    get_param_value long_body "message".toList MAX_MSG_LEN = some (List.replicate 1000 'a') := by
  have h := get_param_value_at long_body "message".toList MAX_MSG_LEN
    "client_id=s&".toList (List.replicate 1000 'a') long_body_cstr (by decide) (by decide)
    (by unfold long_body; rfl)
    (by
      have : long_body = "client_id=s&".toList ++ ("message=".toList ++ List.replicate 1000 'a') := by
        unfold long_body; rfl
      rw [this]
      exact not_prefix_within (a := 'm') (t := "essage=".toList) rfl (by decide) _)
  rw [h, takeWhile_replicate_a, List.length_replicate]
  rfl

theorem long_body_client_id :
    get_param_value long_body "client_id".toList MAX_ID_LEN = some "s".toList := by
  have h := get_param_value_at long_body "client_id".toList MAX_ID_LEN
    [] ("s&message=".toList ++ List.replicate 1000 'a') long_body_cstr (by decide) (by decide)
    (by unfold long_body; rfl)
    (by intro k hk; simp at hk)
  rw [h]
  rfl

theorem handle_post_long (s : State) (h : s.total_messages < MAX_STORED_MSGS) :
    ∃ s1, handle_post s long_body = some s1 ∧
      s1.total_messages = s.total_messages + 1 ∧
      s1.message_store s.total_messages = ⟨List.replicate 1000 'a', "s".toList⟩ ∧
      (∀ j, j ≠ s.total_messages → s1.message_store j = s.message_store j) ∧
      s1.clients = s.clients ∧ s1.total_clients = s.total_clients :=
  handle_post_effect long_body_message long_body_client_id (url_decode_replicate_a 1000)
    (by decide) (by decide) h

theorem run_long_posts (n : Nat) : ∀ (s : State) (hist : List PollEvent),
    s.total_messages + n ≤ MAX_STORED_MSGS →
    ∃ s1, run (s, hist) (List.replicate n (Request.POST long_body)) = some (s1, hist) ∧
      s1.total_messages = s.total_messages + n ∧
      s1.total_clients = s.total_clients ∧
      (∀ i, i < s.total_messages → s1.message_store i = s.message_store i) ∧
      ∀ i, s.total_messages ≤ i → i < s.total_messages + n →
        s1.message_store i = ⟨List.replicate 1000 'a', "s".toList⟩ := by
  induction n with
  | zero =>
    intro s hist _
    exact ⟨s, rfl, rfl, rfl, fun _ _ => rfl, fun i h1 h2 => by omega⟩
  | succ n ih =>
    intro s hist h
    obtain ⟨s1, hp, ht, he, ho, -, hn⟩ := handle_post_long s (by omega)
    obtain ⟨s2, hr, ht2, hn2, hk2, hm2⟩ := ih s1 hist (by omega)
    refine ⟨s2, ?_, by omega, by omega, ?_, ?_⟩
    · rw [List.replicate_succ, run]
      simp only [step, hp, Option.map_some']
      exact hr
    · intro i hi
      rw [hk2 i (by omega), ho i (by omega)]
    · intro i h1 h2
      by_cases hi : i = s.total_messages
      · rw [hi, hk2 _ (by omega), he]
      · exact hm2 i (by omega) (by omega)

theorem long_posts_defined : (run (init, []) long_posts).isSome := by
  obtain ⟨s1, h1, -⟩ := run_long_posts 5 init [] (by decide)
  rw [long_posts, h1]; rfl

theorem long_posts_state :
    (state_after long_posts).total_messages = 5 ∧
    (state_after long_posts).total_clients = 0 ∧
    ∀ i, i < 5 → (state_after long_posts).message_store i =
      ⟨List.replicate 1000 'a', "s".toList⟩ := by
  obtain ⟨s1, h1, h2, h3, -, h5⟩ := run_long_posts 5 init [] (by decide)
  rw [state_after, long_posts, h1]
  exact ⟨h2, h3, fun i hi => h5 i (Nat.zero_le _) (by simpa [init] using hi)⟩

theorem run_append (a b : List Request) : ∀ st : State × List PollEvent,
    run st (a ++ b) = (run st a).bind (fun st1 => run st1 b) := by
  induction a with
  | nil => intro st; rfl
  | cons req rest ih =>
    intro st
    simp only [List.cons_append, run]
    cases step st req with
    | none => rfl
    | some st1 => exact ih st1

/-- Text that identity `p` has not seen after `long_posts`: all five entries,
5005 bytes with their newlines. -/
theorem long_posts_pending :
    unseen_from_others (state_after long_posts) "p".toList 0 5 = [0, 1, 2, 3, 4] ∧
    (batch_of (state_after long_posts) [0, 1, 2, 3, 4]).length = 5005 := by
  obtain ⟨-, -, hmsg⟩ := long_posts_state
  have hone : ∀ i, i < 5 →
      (((state_after long_posts).message_store i).msg ++ ['\n']).length = 1001 := by
    intro i hi
    rw [hmsg i hi, List.length_append, List.length_replicate]
    rfl
  constructor
  · unfold unseen_from_others
    rw [List.filter_eq_self.mpr]
    · rfl
    · intro i hi
      rw [List.mem_range'_1] at hi
      rw [hmsg i (by omega)]
      decide
  · simp only [batch_of, List.flatMap_cons, List.flatMap_nil, List.length_append,
      hone 0 (by decide), hone 1 (by decide), hone 2 (by decide), hone 3 (by decide),
      hone 4 (by decide), List.length_nil]

/-- The first poll of `p` after `long_posts` appends 5005 bytes to `buffer`
and is not defined. -/
theorem long_poll_overflows :
    (collect (get_client_index (state_after long_posts) "p".toList).2 "p".toList
      ((get_client_index (state_after long_posts) "p".toList).2.clients
        (get_client_index (state_after long_posts) "p".toList).1).last_seen_index).1.length
      = 5005 ∧
    (handle_get (state_after long_posts) "/receive?client_id=p".toList).isNone = true := by
  obtain ⟨htot, hnc, hmsg⟩ := long_posts_state
  obtain ⟨hun, hbat⟩ := long_posts_pending
  have hid : clean_id "/receive?client_id=p".toList = some "p".toList := by decide
  have hfind : find_client (state_after long_posts) "p".toList = none := by
    simp [find_client, hnc]
  have hgci : get_client_index (state_after long_posts) "p".toList =
      ((state_after long_posts).total_clients, { state_after long_posts with
        clients := store (state_after long_posts).clients (state_after long_posts).total_clients
          ⟨(cstr "p".toList).take MAX_ID_LEN, 0⟩
        total_clients := (state_after long_posts).total_clients + 1 }) := by
    rcases get_client_index_cases (state_after long_posts) "p".toList with
      ⟨k, hf, -⟩ | ⟨-, -, h⟩ | ⟨-, hge, -⟩
    · rw [show cstr "p".toList = "p".toList by decide, hfind] at hf; cases hf
    · exact h
    · rw [hnc] at hge; exact absurd hge (by decide)
  have hcur : ((get_client_index (state_after long_posts) "p".toList).2.clients
      (get_client_index (state_after long_posts) "p".toList).1).last_seen_index = 0 := by
    rw [hgci]; simp [store]
  have hlog := get_client_index_log (state_after long_posts) "p".toList
  have hlen : (collect (get_client_index (state_after long_posts) "p".toList).2 "p".toList
      ((get_client_index (state_after long_posts) "p".toList).2.clients
        (get_client_index (state_after long_posts) "p".toList).1).last_seen_index).1.length
      = 5005 := by
    rw [collect_eq, hcur]
    have key : batch_of (get_client_index (state_after long_posts) "p".toList).2
        (unseen_from_others (get_client_index (state_after long_posts) "p".toList).2 "p".toList 0
          (get_client_index (state_after long_posts) "p".toList).2.total_messages) =
        batch_of (state_after long_posts)
          (unseen_from_others (state_after long_posts) "p".toList 0 5) := by
      simp only [batch_of, unseen_from_others, hlog.1, hlog.2, htot]
    simp only
    rw [key, hun, hbat]
  refine ⟨hlen, ?_⟩
  unfold handle_get
  rw [hid]
  simp only
  rw [if_neg (by rw [hlen]; decide)]
  rfl

/-- C20. Unbounded batch: after five publishes of 1000-byte messages by one
sender, a reachable state, the first poll of another identity makes the loop
of `handle_get` concatenate 5005 bytes, more than the 4095 that `buffer` can
hold before its terminator, and the poll leaves defined behaviour. -/
theorem batch_exceeds_buffer :
    Reachable (state_after long_posts) ∧
    (state_after long_posts).total_messages = 5 ∧
    (∀ i, i < 5 → (state_after long_posts).message_store i =
      ⟨List.replicate 1000 'a', "s".toList⟩) ∧
    clean_id "/receive?client_id=p".toList = some "p".toList ∧
    (collect (get_client_index (state_after long_posts) "p".toList).2 "p".toList
      ((get_client_index (state_after long_posts) "p".toList).2.clients
        (get_client_index (state_after long_posts) "p".toList).1).last_seen_index).1.length
      = 5005 ∧
    GET_BUFFER_SIZE - 1 = 4095 ∧
    (handle_get (state_after long_posts) "/receive?client_id=p".toList).isNone = true := by
  obtain ⟨htot, -, hmsg⟩ := long_posts_state
  obtain ⟨hlen, hnone⟩ := long_poll_overflows
  exact ⟨reachable_state_after long_posts long_posts_defined, htot, hmsg, by decide, hlen,
    by decide, hnone⟩

/-- C5, at a failing input. Five publishes of 1000-byte messages by `s` are
served; the only poll is the first one of `p`, so a single identity polls.
No loss would have that poll return the five entries, 5005 bytes.  The loop of
`handle_get` appends all of them to `buffer[4096]` and runs past its end: the
poll is not defined, the run has no result, and no batch is returned to `p`. -/
theorem long_batch_not_delivered :
    (run (init, []) long_posts).isSome = true ∧
    (state_after long_posts).total_messages = 5 ∧
    (∀ i, i < 5 → (state_after long_posts).message_store i =
      ⟨List.replicate 1000 'a', "s".toList⟩) ∧
    clean_id "/receive?client_id=p".toList = some "p".toList ∧
    unseen_from_others (state_after long_posts) "p".toList 0 5 = [0, 1, 2, 3, 4] ∧
    (batch_of (state_after long_posts) [0, 1, 2, 3, 4]).length = 5005 ∧
    (handle_get (state_after long_posts) "/receive?client_id=p".toList).isNone = true ∧
    (run (init, []) (long_posts ++ [Request.GET "/receive?client_id=p".toList])).isNone
      = true := by
  obtain ⟨htot, -, hmsg⟩ := long_posts_state
  obtain ⟨hun, hbat⟩ := long_posts_pending
  obtain ⟨-, hnone⟩ := long_poll_overflows
  refine ⟨long_posts_defined, htot, hmsg, by decide, hun, hbat, hnone, ?_⟩
  rw [run_append, run_state_history long_posts long_posts_defined]
  simp only [Option.some_bind, run, step]
  rw [Option.isNone_iff_eq_none] at hnone
  rw [hnone]
  rfl

end WebChat
